import Mathlib

/-!
# trikControl::PowerMotor — calibration table and command encoding

Shallow embedding of `trikControl/src/powerMotor.cpp`.

Modelling conventions
* C++ `int` values are `Int`; the source performs no arithmetic on them that can
  leave the 32-bit range for the inputs considered, and the low byte taken by
  `& 0xFF` does not depend on a wrap at `2^32`.
* C++ `double` values are rationals (`ℚ`), and the table construction is given
  twice.  `lineariseMotor` computes in exact arithmetic; it serves for what does
  not hinge on rounding: which pair of points the search selects, which
  exception is thrown, the length and the order of the table.
  `lineariseMotorDouble` rounds the result of every operation to the nearest
  binary64 number (`toDouble`: IEEE 754, round to nearest, ties to even), as the
  code does; it serves for the values of the entries, which can be one off the
  exact ones.  On 32-bit points whose measured outputs start at or below 0 and
  end above 0 the two end the same way (`lineariseMotor_outcome_double`).  The
  one place where IEEE arithmetic leaves the rationals (a
  division by zero, giving an infinity or a NaN) is made explicit as the outcome
  `Exception.NonFinite`.
* A `QVector` access outside `0 .. size-1` (undefined behaviour in the source)
  is the outcome `Exception.IndexOutOfRange`.
* A byte of a `QByteArray` is its unsigned value `0 .. 255`.
* `mCommunicator.send` is a log of the commands handed to the transport, oldest
  first.
* A `QString` is the list of its characters; `QString::split`, `QString::mid`
  and `QString::toInt` are modelled on such lists, as far as the parsing loop of
  `lineariseMotor` uses them.
* The header `powerMotor.h` is not among the sources: the default value of the
  parameter `constrain` is taken from the specification (`constrainDefault`).
-/

namespace trikControl

/-- Ways in which an operation of the driver can fail to return normally. -/
inductive Exception where
  | InternalErrorException
  | MalformedConfigException
  | IndexOutOfRange
  | NonFinite
  deriving DecidableEq, Repr

/-- The constant `maxControlValue` of the source. -/
abbrev maxControlValue : Int := 100

/-- The constant `minControlValue` of the source. -/
abbrev minControlValue : Int := -100

/-- Conversion of a `double` to `int`: truncation toward zero. -/
def toInt (x : ℚ) : Int := if 0 ≤ x then ⌊x⌋ else ⌈x⌉

/-- Access `v[k]` of a `QVector` with an `int` index. -/
def at? {α : Type} (v : List α) (k : Int) : Option α :=
  if k < 0 then none else v[k.toNat]?

/-- The two statements `second *= maxControlValue; second /= maxValue` applied to
every point (first loop of `lineariseMotor`). -/
def normalise (maxValue : Int) (powerAddiction : List (ℚ × ℚ)) : List (ℚ × ℚ) :=
  powerAddiction.map fun p => (p.1, p.2 * (maxControlValue : ℚ) / (maxValue : ℚ))

/-- The search `while (i >= powerAddiction[k].second) k++`, run on the points from
index `k` on; `none` when `k` runs past the end of the vector. -/
def whileLoop (i : Int) : List (ℚ × ℚ) → Int → Option Int
  | [], _ => none
  | p :: rest, k => if (i : ℚ) ≥ p.2 then whileLoop i rest (k + 1) else some k

/-- One iteration of the second loop of `lineariseMotor`: the value appended to
`mPowerMap` for control magnitude `i`, or the way the iteration fails.  A zero
`measureDifference` would make `koef` an infinity or a NaN, whose conversion to
`int` is undefined: that is the outcome `NonFinite`.  The arithmetic is exact
here; `loopBodyDouble` is the same iteration with every operation rounded as the
type `double` rounds it, and the value appended can differ by one between the
two. -/
def loopBody (powerAddiction : List (ℚ × ℚ)) (i : Int) : Except Exception Int :=
  match whileLoop i powerAddiction 0 with
  | none => .error .IndexOutOfRange
  | some k' =>
    let k := k' - 1
    match at? powerAddiction (k + 1), at? powerAddiction k with
    | some hi, some lo =>
      let measureDifference := hi.2 - lo.2
      let axeDifferenece := hi.1 - lo.1
      if measureDifference < 0 ∨ axeDifferenece < 0 then
        .error .MalformedConfigException
      else if measureDifference = 0 then
        .error .NonFinite
      else
        let koef := axeDifferenece / measureDifference
        .ok (toInt (lo.1 + koef * ((i : ℚ) - lo.2)))
    | _, _ => .error .IndexOutOfRange

/-- The loop `for (int i = ...; i < maxControlValue; i++)` with `n` iterations
left, appending to `mPowerMap`. -/
def forLoop (powerAddiction : List (ℚ × ℚ)) : Nat → Int → List Int → Except Exception (List Int)
  | 0, _, mPowerMap => .ok mPowerMap
  | n + 1, i, mPowerMap =>
    match loopBody powerAddiction i with
    | .error e => .error e
    | .ok power => forLoop powerAddiction n (i + 1) (mPowerMap ++ [power])

/-- The vector `powerAddiction` as the parsing loop of `lineariseMotor` fills it:
each parsed `int` stored in a `double`. -/
def toDoubles (points : List (Int × Int)) : List (ℚ × ℚ) :=
  points.map fun p => ((p.1 : ℚ), (p.2 : ℚ))

/-- `PowerMotor::lineariseMotor` after its parsing loop: `points` holds the
parsed `(raw; measured)` pairs, `mPowerMap` the table so far (empty when the
constructor calls it).  Returns the new `mPowerMap`. -/
def lineariseMotor (mPowerMap : List Int) (points : List (Int × Int)) :
    Except Exception (List Int) :=
  let pa : List (ℚ × ℚ) := toDoubles points
  let addictionLength : Int := pa.length
  match at? pa (addictionLength - 1) with
  | none => .error .IndexOutOfRange
  | some last =>
    let maxValue : Int := toInt last.2
    -- `second /= maxValue` with `maxValue == 0` yields infinities and NaNs
    if maxValue = 0 then .error .NonFinite
    else
      match forLoop (normalise maxValue pa) maxControlValue.toNat 0 mPowerMap with
      | .error e => .error e
      | .ok m => .ok (m ++ [maxControlValue])

/-- The value one iteration appends for magnitude `i`, and `0` when the
iteration fails (used to name the entries of a table that was built). -/
def entryOf (powerAddiction : List (ℚ × ℚ)) (i : Int) : Int :=
  match loopBody powerAddiction i with
  | .ok power => power
  | .error _ => 0

/-- Equality of two outcomes of `lineariseMotor` can be decided. -/
instance decEqTable : DecidableEq (Except Exception (List Int)) := fun a b =>
  match a, b with
  | .ok x, .ok y =>
    if h : x = y then isTrue (by rw [h]) else isFalse (by intro e; cases e; exact h rfl)
  | .error x, .error y =>
    if h : x = y then isTrue (by rw [h]) else isFalse (by intro e; cases e; exact h rfl)
  | .ok _, .error _ => isFalse (by intro e; cases e)
  | .error _, .ok _ => isFalse (by intro e; cases e)

/-- The expression `x & 0xFF` on an `int` (two's complement): the low eight bits. -/
def and0xFF (x : Int) : Int := x % 256

/-- The expression `x >> 8` on an `int` (arithmetic shift). -/
def shr8 (x : Int) : Int := x / 256

/-- The byte stored by `static_cast<char>(x)`, as its unsigned value. -/
def toChar (x : Int) : Nat := (x % 256).toNat

/-- A stored byte read back as a signed 8-bit integer. -/
def asSigned (b : Nat) : Int := if b < 128 then (b : Int) else (b : Int) - 256

/-- The calibrated power in the words of the specification: `table[p]` for
`p > 0` and `-table[-p]` for `p ≤ 0`, negated when the inversion flag is set
(an entry outside the table reads as 0). -/
def calibratedPower (table : List Int) (invert : Bool) (p : Int) : Int :=
  let c := if p > 0 then table.getD p.toNat 0 else -(table.getD (-p).toNat 0)
  if invert then -c else c

/-- The members of `PowerMotor` that the operations read or write.
`mCommunicator` is the log of the commands passed to `mCommunicator.send`. -/
structure PowerMotor where
  mInvert : Bool
  mMspCommandNumber : Int
  mCurrentPeriod : Int
  mCurrentPower : Int
  mPowerMap : List Int
  mCommunicator : List (List Nat)
  deriving DecidableEq, Repr

/-- What a member call leaves behind: the driver state, and the exception that
ended the call, if one was thrown. -/
structure Outcome where
  state : PowerMotor
  thrown : Option Exception
  deriving DecidableEq, Repr

/-- `PowerMotor::setPower(int power, bool constrain)`. -/
def PowerMotor.setPower (s : PowerMotor) (power : Int) (constrain : Bool) : Outcome :=
  if !constrain then
    ⟨s, some .InternalErrorException⟩
  else
    let s := { s with mCurrentPower := power }
    let looked : Option Int :=
      if power ≤ 0 then (at? s.mPowerMap (-power)).map fun v => -v
      else at? s.mPowerMap power
    match looked with
    | none => ⟨s, some .IndexOutOfRange⟩
    | some power =>
      let power := if s.mInvert then -power else power
      let command : List Nat :=
        [toChar (and0xFF s.mMspCommandNumber),
         toChar (and0xFF (shr8 s.mMspCommandNumber)),
         toChar (and0xFF power)]
      ⟨{ s with mCommunicator := s.mCommunicator ++ [command] }, none⟩

/-- `PowerMotor::power()`. -/
def PowerMotor.power (s : PowerMotor) : Int := s.mCurrentPower

/-- `PowerMotor::period()`. -/
def PowerMotor.period (s : PowerMotor) : Int := s.mCurrentPeriod

/-- Modelled from the spec: the default value of the parameter `constrain` of
`setPower`.  It is declared in `powerMotor.h`, which is not among the sources;
the specification gives `powerOff()` as `setPower(0, true)`. -/
def constrainDefault : Bool := true

/-- `PowerMotor::powerOff()`: the call `setPower(0)`, whose second argument is
the declared default. -/
def PowerMotor.powerOff (s : PowerMotor) : Outcome := s.setPower 0 constrainDefault

/-- `PowerMotor::setPeriod(int period)`. -/
def PowerMotor.setPeriod (s : PowerMotor) (period : Int) : PowerMotor :=
  let s := { s with mCurrentPeriod := period }
  let command : List Nat :=
    [toChar (and0xFF (s.mMspCommandNumber - 4)),
     0,
     toChar (and0xFF period),
     toChar (shr8 period)]
  { s with mCommunicator := s.mCommunicator ++ [command] }

/-- `PowerMotor::minControl()`. -/
def PowerMotor.minControl (_s : PowerMotor) : Int := minControlValue

/-- `PowerMotor::maxControl()`. -/
def PowerMotor.maxControl (_s : PowerMotor) : Int := maxControlValue

/-- The constructor `PowerMotor::PowerMotor` (named `ctor`, the type holding the
name `PowerMotor`).  The values read from the
configurer are its arguments: the text of attribute `invert`, the integers
`i2cCommandNumber` and `period`, and the parsed points of `measures`;
`communicator` is the transport log at the time of the call. -/
def PowerMotor.ctor (invert : String) (i2cCommandNumber period : Int)
    (measures : List (Int × Int)) (communicator : List (List Nat)) :
    Except Exception PowerMotor :=
  let s : PowerMotor :=
    { mInvert := invert == "false"
      mMspCommandNumber := i2cCommandNumber
      mCurrentPeriod := period
      mCurrentPower := 0
      mPowerMap := []
      mCommunicator := communicator }
  let s := s.setPeriod s.mCurrentPeriod
  match lineariseMotor s.mPowerMap measures with
  | .error e => .error e
  | .ok m => .ok { s with mPowerMap := m }

/-! ## The text of attribute `measures` -/

/-- A `QString`, as the list of its characters. -/
abbrev QString := List Char

/-- `QString::split(sep)` for a separator of one character; empty parts are
kept, and the empty string splits into one empty part. -/
def QString.split (sep : Char) : QString → List QString
  | [] => [[]]
  | c :: cs =>
    if c = sep then [] :: QString.split sep cs
    else
      match QString.split sep cs with
      | [] => [[c]]
      | part :: parts => (c :: part) :: parts

/-- `QString::mid(1)` on a non-empty string: the string without its first
character. -/
def QString.mid1 (s : QString) : QString := s.drop 1

/-- `QChar::isSpace` on the characters U+0009..U+000D, U+0020, U+0085 and
U+00A0 (the Unicode separators beyond these are left out). -/
def isSpace (c : Char) : Bool :=
  decide (c.toNat = 32 ∨ (9 ≤ c.toNat ∧ c.toNat ≤ 13) ∨ c.toNat = 133 ∨ c.toNat = 160)

/-- The string without leading and trailing white space. -/
def trimmed (s : QString) : QString :=
  ((s.dropWhile isSpace).reverse.dropWhile isSpace).reverse

/-- The number written by a run of decimal digits, read left to right from the
value `acc`; `none` when a character is not a digit. -/
def digitsValue (acc : Nat) : QString → Option Nat
  | [] => some acc
  | c :: cs => if c.isDigit then digitsValue (acc * 10 + (c.toNat - 48)) cs else none

/-- `QString::toInt()` in base 10: white space around the number is skipped, a
sign may precede the digits, and the result is 0 when the text is not a number
or the number does not fit a 32-bit `int`. -/
def QString.toInt (s : QString) : Int :=
  let t := trimmed s
  let negative : Bool := t.head? = some '-'
  let signed : Bool := negative || t.head? = some '+'
  let body : QString := if signed then t.drop 1 else t
  if body = [] then 0
  else
    match digitsValue 0 body with
    | none => 0
    | some n =>
      let v : Int := if negative then -(n : Int) else (n : Int)
      if -2147483648 ≤ v ∧ v ≤ 2147483647 then v else 0

/-- The parsing loop of `lineariseMotor` over the parts of
`measures.split(")")`, appending to `powerAddiction`.  `QList::at(1)` on a part
without `;` is outside the list. -/
def parseLoop : List QString → List (Int × Int) → Except Exception (List (Int × Int))
  | [], powerAddiction => .ok powerAddiction
  | str :: rest, powerAddiction =>
    if str ≠ [] then
      let parts := QString.split ';' (QString.mid1 str)
      match at? parts 0, at? parts 1 with
      | some first, some second =>
        parseLoop rest (powerAddiction ++ [(QString.toInt first, QString.toInt second)])
      | _, _ => .error .IndexOutOfRange
    else parseLoop rest powerAddiction

/-- The first loop of `lineariseMotor`: the points read from the text of
attribute `measures`. -/
def parseMeasures (measures : QString) : Except Exception (List (Int × Int)) :=
  parseLoop (QString.split ')' measures) []

/-- `PowerMotor::lineariseMotor` on the text of attribute `measures`: the
parsing loop followed by the construction of the table. -/
def lineariseMotorText (mPowerMap : List Int) (measures : QString) :
    Except Exception (List Int) :=
  match parseMeasures measures with
  | .error e => .error e
  | .ok points => lineariseMotor mPowerMap points

/-- The decimal digits of `n`, least significant first, at most `fuel` of them. -/
def digitsRev : Nat → Nat → QString
  | 0, _ => []
  | fuel + 1, n =>
    Nat.digitChar (n % 10) :: (if n / 10 = 0 then [] else digitsRev fuel (n / 10))

/-- The decimal text of a natural number. -/
def formatNat (n : Nat) : QString := (digitsRev (n + 1) n).reverse

/-- The decimal text of an integer, with `-` in front of a negative one. -/
def formatInt (z : Int) : QString :=
  if z < 0 then '-' :: formatNat z.natAbs else formatNat z.natAbs

/-- The group `(raw;measured)` of one point, without its closing parenthesis. -/
def groupBody (p : Int × Int) : QString :=
  '(' :: (formatInt p.1 ++ ';' :: formatInt p.2)

/-- The text of the specification for a list of points: the groups
`(raw;measured)` one after the other. -/
def formatMeasures : List (Int × Int) → QString
  | [] => []
  | p :: rest => groupBody p ++ ')' :: formatMeasures rest

/-- The normalized output of a point in the words of the specification:
`measured * 100 / measured(last)`. -/
def normalized (last p : Int × Int) : ℚ := (p.2 : ℚ) * 100 / (last.2 : ℚ)

/-! ## The table in `double` arithmetic -/

/-- The number of binary digits of `n`, counted with at most `fuel` halvings. -/
def bits : Nat → Nat → Nat
  | 0, _ => 0
  | fuel + 1, n => if n = 0 then 0 else bits fuel (n / 2) + 1

/-- The number of binary digits of `n`: `2^(bitLength n - 1) ≤ n < 2^(bitLength n)`
for `n > 0`. -/
def bitLength (n : Nat) : Nat := bits n n

/-- The binary exponent of a positive rational `x`: the integer `e` with
`2^e ≤ x < 2^(e+1)`. -/
def binade (x : ℚ) : Int :=
  let e0 : Int := (bitLength x.num.natAbs : Int) - (bitLength x.den : Int)
  if (2 : ℚ) ^ e0 ≤ x then e0 else e0 - 1

/-- Rounding of a rational to the nearest integer, a tie going to the even
one. -/
def roundHalfEven (y : ℚ) : Int :=
  if y - (⌊y⌋ : ℚ) < 1 / 2 then ⌊y⌋
  else if 1 / 2 < y - (⌊y⌋ : ℚ) then ⌊y⌋ + 1
  else if ⌊y⌋ % 2 = 0 then ⌊y⌋ else ⌊y⌋ + 1

/-- Rounding of a positive rational to 53 significant bits, to nearest, a tie
going to the even significand. -/
def roundPos (x : ℚ) : ℚ :=
  (roundHalfEven (x * (2 : ℚ) ^ (52 - binade x)) : ℚ) / (2 : ℚ) ^ (52 - binade x)

/-- The result of an arithmetic operation on `double` whose exact value is `x`:
`x` rounded to the nearest binary64 number (IEEE 754, round to nearest, ties to
even).  The exponent range of binary64 is not modelled: with 32-bit integer
points no intermediate value of `lineariseMotor` comes near it. -/
def toDouble (x : ℚ) : ℚ :=
  if 0 < x then roundPos x else if x < 0 then -roundPos (-x) else 0

/-- The normalized output of a point as the code stores it: the statements
`second *= maxControlValue` and `second /= maxValue` in `double` arithmetic. -/
def normalizedDouble (last p : Int × Int) : ℚ :=
  toDouble (toDouble ((p.2 : ℚ) * 100) / (last.2 : ℚ))

/-- The first loop of `lineariseMotor` in `double` arithmetic: each of
`second *= maxControlValue` and `second /= maxValue` rounds its result. -/
def normaliseDouble (maxValue : Int) (powerAddiction : List (ℚ × ℚ)) : List (ℚ × ℚ) :=
  powerAddiction.map fun p =>
    (p.1, toDouble (toDouble (p.2 * (maxControlValue : ℚ)) / (maxValue : ℚ)))

/-- One iteration of the second loop of `lineariseMotor` in `double`
arithmetic: every subtraction, division, multiplication and addition rounds its
result on its own (no fused multiply-add, no wider intermediate format) before
the conversion to `int` truncates.  The `int` values of the points are stored in
`double` without rounding, as 32-bit integers are. -/
def loopBodyDouble (powerAddiction : List (ℚ × ℚ)) (i : Int) : Except Exception Int :=
  match whileLoop i powerAddiction 0 with
  | none => .error .IndexOutOfRange
  | some k' =>
    let k := k' - 1
    match at? powerAddiction (k + 1), at? powerAddiction k with
    | some hi, some lo =>
      let measureDifference := toDouble (hi.2 - lo.2)
      let axeDifferenece := toDouble (hi.1 - lo.1)
      if measureDifference < 0 ∨ axeDifferenece < 0 then
        .error .MalformedConfigException
      else if measureDifference = 0 then
        .error .NonFinite
      else
        let koef := toDouble (axeDifferenece / measureDifference)
        .ok (toInt (toDouble (lo.1 + toDouble (koef * toDouble ((i : ℚ) - lo.2)))))
    | _, _ => .error .IndexOutOfRange

/-- The value one iteration in `double` arithmetic appends for magnitude `i`,
and `0` when the iteration fails. -/
def entryOfDouble (powerAddiction : List (ℚ × ℚ)) (i : Int) : Int :=
  match loopBodyDouble powerAddiction i with
  | .ok power => power
  | .error _ => 0

/-- The loop `for (int i = ...; i < maxControlValue; i++)` in `double`
arithmetic, with `n` iterations left. -/
def forLoopDouble (powerAddiction : List (ℚ × ℚ)) :
    Nat → Int → List Int → Except Exception (List Int)
  | 0, _, mPowerMap => .ok mPowerMap
  | n + 1, i, mPowerMap =>
    match loopBodyDouble powerAddiction i with
    | .error e => .error e
    | .ok power => forLoopDouble powerAddiction n (i + 1) (mPowerMap ++ [power])

/-- `PowerMotor::lineariseMotor` after its parsing loop, in `double`
arithmetic. -/
def lineariseMotorDouble (mPowerMap : List Int) (points : List (Int × Int)) :
    Except Exception (List Int) :=
  let pa : List (ℚ × ℚ) := toDoubles points
  let addictionLength : Int := pa.length
  match at? pa (addictionLength - 1) with
  | none => .error .IndexOutOfRange
  | some last =>
    let maxValue : Int := toInt last.2
    if maxValue = 0 then .error .NonFinite
    else
      match forLoopDouble (normaliseDouble maxValue pa) maxControlValue.toNat 0 mPowerMap with
      | .error e => .error e
      | .ok m => .ok (m ++ [maxControlValue])

/-! ## Conversion and indexing -/

theorem toInt_intCast (n : Int) : toInt (n : ℚ) = n := by
  unfold toInt
  split <;> simp

theorem toInt_mono {x y : ℚ} (h : x ≤ y) : toInt x ≤ toInt y := by
  unfold toInt
  by_cases hx : 0 ≤ x
  · have hy : 0 ≤ y := le_trans hx h
    rw [if_pos hx, if_pos hy]
    exact Int.floor_mono h
  · rw [if_neg hx]
    by_cases hy : 0 ≤ y
    · rw [if_pos hy]
      have h1 : ⌈x⌉ ≤ 0 := Int.ceil_le.mpr (by push_cast; exact le_of_lt (not_le.mp hx))
      have h2 : 0 ≤ ⌊y⌋ := Int.floor_nonneg.mpr hy
      exact le_trans h1 h2
    · rw [if_neg hy]
      exact Int.ceil_mono h

theorem at?_natCast {α : Type} (v : List α) (j : Nat) : at? v (j : Int) = v[j]? := by
  unfold at?
  simp

theorem at?_neg {α : Type} (v : List α) {k : Int} (h : k < 0) : at? v k = none := by
  unfold at?
  simp [h]

/-! ## The bracket search -/

theorem whileLoop_some (i : Int) :
    ∀ (l : List (ℚ × ℚ)) (k r : Int), whileLoop i l k = some r →
      ∃ (j : Nat) (p : ℚ × ℚ), r = k + j ∧ l[j]? = some p ∧ (i : ℚ) < p.2 ∧
        ∀ (j' : Nat) (q : ℚ × ℚ), j' < j → l[j']? = some q → q.2 ≤ (i : ℚ) := by
  intro l
  induction l with
  | nil => intro k r h; simp [whileLoop] at h
  | cons p rest ih =>
    intro k r h
    unfold whileLoop at h
    by_cases hp : (i : ℚ) ≥ p.2
    · rw [if_pos hp] at h
      obtain ⟨j, q, hr, hq, hlt, hall⟩ := ih (k + 1) r h
      refine ⟨j + 1, q, ?_, ?_, hlt, ?_⟩
      · rw [hr]; push_cast; ring
      · simpa using hq
      · intro j' q' hj' hq'
        cases j' with
        | zero =>
          simp at hq'
          rw [← hq']; exact hp
        | succ j'' =>
          simp at hq'
          exact hall j'' q' (by omega) hq'
    · rw [if_neg hp] at h
      refine ⟨0, p, ?_, ?_, ?_, ?_⟩
      · simp at h; simp [h]
      · simp
      · exact not_le.mp hp
      · intro j' q hj'; omega

theorem whileLoop_isSome (i : Int) :
    ∀ (l : List (ℚ × ℚ)) (k : Int), (∃ p ∈ l, (i : ℚ) < p.2) →
      ∃ r, whileLoop i l k = some r := by
  intro l
  induction l with
  | nil => intro k h; simp at h
  | cons p rest ih =>
    intro k h
    unfold whileLoop
    by_cases hp : (i : ℚ) ≥ p.2
    · rw [if_pos hp]
      apply ih
      obtain ⟨q, hq, hlt⟩ := h
      rcases List.mem_cons.mp hq with rfl | hq
      · exact absurd hlt (not_lt.mpr hp)
      · exact ⟨q, hq, hlt⟩
    · rw [if_neg hp]
      exact ⟨k, rfl⟩

theorem whileLoop_none (i : Int) :
    ∀ (l : List (ℚ × ℚ)) (k : Int), whileLoop i l k = none → ∀ p ∈ l, p.2 ≤ (i : ℚ) := by
  intro l k h p hp
  by_contra hcon
  obtain ⟨r, hr⟩ := whileLoop_isSome i l k ⟨p, hp, not_le.mp hcon⟩
  rw [hr] at h
  cases h

theorem whileLoop_eq (i : Int) :
    ∀ (l : List (ℚ × ℚ)) (k : Int) (j : Nat) (p : ℚ × ℚ), l[j]? = some p → (i : ℚ) < p.2 →
      (∀ (j' : Nat) (q : ℚ × ℚ), j' < j → l[j']? = some q → q.2 ≤ (i : ℚ)) →
      whileLoop i l k = some (k + j) := by
  intro l k j p hp hlt hall
  obtain ⟨r, hr⟩ := whileLoop_isSome i l k ⟨p, List.getElem?_mem hp, hlt⟩
  obtain ⟨j0, p0, hr0, hp0, hlt0, hall0⟩ := whileLoop_some i l k r hr
  have hj : j0 = j := by
    rcases Nat.lt_trichotomy j0 j with h | h | h
    · exact absurd (hall j0 p0 h hp0) (not_le.mpr hlt0)
    · exact h
    · exact absurd (hall0 j p h hp) (not_le.mpr hlt)
  rw [hr, hr0, hj]

/-- The value computed by one iteration whose search stops inside the vector and
not at its first point: the interpolation on the pair in front of the stop, or
`MalformedConfigException` when that pair has a decreasing raw input. -/
theorem loopBody_bracket (pa : List (ℚ × ℚ)) (i : Int)
    (h0 : ∃ p0, pa[0]? = some p0 ∧ p0.2 ≤ (i : ℚ)) (hex : ∃ p ∈ pa, (i : ℚ) < p.2) :
    ∃ (j : Nat) (lo hi : ℚ × ℚ), pa[j]? = some lo ∧ pa[j + 1]? = some hi ∧
      lo.2 ≤ (i : ℚ) ∧ (i : ℚ) < hi.2 ∧
      (∀ (j' : Nat) (q : ℚ × ℚ), j' ≤ j → pa[j']? = some q → q.2 ≤ (i : ℚ)) ∧
      whileLoop i pa 0 = some ((j : Int) + 1) ∧
      loopBody pa i =
        if hi.1 < lo.1 then .error .MalformedConfigException
        else .ok (toInt (lo.1 + (hi.1 - lo.1) / (hi.2 - lo.2) * ((i : ℚ) - lo.2))) := by
  obtain ⟨r, hr⟩ := whileLoop_isSome i pa 0 hex
  obtain ⟨j0, hi, hr0, hhi, hlt, hall⟩ := whileLoop_some i pa 0 r hr
  obtain ⟨p0, hp0, hle0⟩ := h0
  have hj0 : j0 ≠ 0 := by
    rintro rfl
    rw [hp0] at hhi
    cases hhi
    exact absurd hle0 (not_le.mpr hlt)
  obtain ⟨j, rfl⟩ := Nat.exists_eq_succ_of_ne_zero hj0
  have hlen : j + 1 < pa.length := (List.getElem?_eq_some_iff.mp hhi).1
  have hjlt : j < pa.length := by omega
  have hlo : pa[j]? = some pa[j] := List.getElem?_eq_getElem hjlt
  have hlole : (pa[j]).2 ≤ (i : ℚ) := hall j pa[j] (by omega) hlo
  have hr1 : r = (j : Int) + 1 := by rw [hr0]; push_cast; ring
  refine ⟨j, pa[j], hi, hlo, hhi, hlole, hlt, ?_, ?_, ?_⟩
  · intro j' q hj' hq
    exact hall j' q (by omega) hq
  · rw [hr, hr1]
  · have e1 : at? pa ((j : Int) + 1 - 1 + 1) = some hi := by
      have : ((j : Int) + 1 - 1 + 1) = ((j + 1 : Nat) : Int) := by push_cast; ring
      rw [this, at?_natCast]; exact hhi
    have e2 : at? pa ((j : Int) + 1 - 1) = some pa[j] := by
      have : ((j : Int) + 1 - 1) = ((j : Nat) : Int) := by ring
      rw [this, at?_natCast]; exact hlo
    have hpos : ¬ (hi.2 - (pa[j]).2 < 0) := by
      have : (pa[j]).2 < hi.2 := lt_of_le_of_lt hlole hlt
      linarith
    have hne : ¬ (hi.2 - (pa[j]).2 = 0) := by
      have : (pa[j]).2 < hi.2 := lt_of_le_of_lt hlole hlt
      intro h; linarith
    unfold loopBody
    rw [hr, hr1]
    simp only [e1, e2]
    by_cases hraw : hi.1 < (pa[j]).1
    · have : hi.1 - (pa[j]).1 < 0 := by linarith
      simp [hraw, this]
    · have : ¬ (hi.1 - (pa[j]).1 < 0) := by
        intro h; apply hraw; linarith
      simp only [hpos, this, or_self, if_false, hne, hraw]

/-! ## The table-filling loop -/

theorem forLoop_ok (pa : List (ℚ × ℚ)) :
    ∀ (n : Nat) (i : Int) (m : List Int),
      (∀ j : Nat, j < n → ∃ v, loopBody pa (i + (j : Int)) = .ok v) →
      forLoop pa n i m = .ok (m ++ (List.range n).map fun (j : Nat) => entryOf pa (i + (j : Int))) := by
  intro n
  induction n with
  | zero => intro i m _; simp [forLoop]
  | succ n ih =>
    intro i m h
    obtain ⟨v, hv⟩ := h 0 (Nat.succ_pos n)
    simp only [Nat.cast_zero, add_zero] at hv
    have hnext : ∀ j : Nat, j < n → ∃ w, loopBody pa (i + 1 + (j : Int)) = .ok w := by
      intro j hj
      obtain ⟨w, hw⟩ := h (j + 1) (Nat.succ_lt_succ hj)
      refine ⟨w, ?_⟩
      rw [← hw]; congr 1; push_cast; ring
    have hentry : entryOf pa i = v := by simp [entryOf, hv]
    unfold forLoop
    rw [hv]
    simp only
    rw [ih (i + 1) (m ++ [v]) hnext, List.range_succ_eq_map]
    simp only [List.map_cons, List.map_map, Nat.cast_zero, add_zero, hentry,
      List.append_assoc, List.singleton_append]
    congr 3
    apply List.map_congr_left
    intro j _
    simp only [Function.comp_apply, Nat.succ_eq_add_one]
    congr 1; push_cast; ring

theorem forLoop_length (pa : List (ℚ × ℚ)) :
    ∀ (n : Nat) (i : Int) (m t : List Int), forLoop pa n i m = .ok t →
      t.length = m.length + n := by
  intro n
  induction n with
  | zero => intro i m t h; simp [forLoop] at h; simp [h]
  | succ n ih =>
    intro i m t h
    unfold forLoop at h
    cases hb : loopBody pa i with
    | error e => rw [hb] at h; cases h
    | ok v =>
      rw [hb] at h
      have := ih (i + 1) (m ++ [v]) t h
      simp at this
      omega

theorem forLoop_error_of (pa : List (ℚ × ℚ)) (e : Exception) :
    ∀ (n : Nat) (i : Int) (m : List Int) (j : Nat), j < n →
      loopBody pa (i + (j : Int)) = .error e →
      (∀ j' : Nat, j' < j → ∃ v, loopBody pa (i + (j' : Int)) = .ok v) →
      forLoop pa n i m = .error e := by
  intro n
  induction n with
  | zero => intro i m j hj; omega
  | succ n ih =>
    intro i m j hj he hbefore
    unfold forLoop
    cases j with
    | zero =>
      simp only [Nat.cast_zero, add_zero] at he
      rw [he]
    | succ j =>
      obtain ⟨v, hv⟩ := hbefore 0 (Nat.succ_pos j)
      simp only [Nat.cast_zero, add_zero] at hv
      rw [hv]
      simp only
      apply ih (i + 1) (m ++ [v]) j (by omega)
      · rw [← he]; congr 1; push_cast; ring
      · intro j' hj'
        obtain ⟨w, hw⟩ := hbefore (j' + 1) (by omega)
        refine ⟨w, ?_⟩
        rw [← hw]; congr 1; push_cast; ring

theorem forLoop_error_inv (pa : List (ℚ × ℚ)) (e : Exception) :
    ∀ (n : Nat) (i : Int) (m : List Int), forLoop pa n i m = .error e →
      ∃ j : Nat, j < n ∧ loopBody pa (i + (j : Int)) = .error e := by
  intro n
  induction n with
  | zero => intro i m h; simp [forLoop] at h
  | succ n ih =>
    intro i m h
    unfold forLoop at h
    cases hb : loopBody pa i with
    | error e' =>
      rw [hb] at h
      simp only at h
      refine ⟨0, Nat.succ_pos n, ?_⟩
      simp only [Nat.cast_zero, add_zero]
      cases h
      exact hb
    | ok v =>
      rw [hb] at h
      obtain ⟨j, hj, hje⟩ := ih (i + 1) (m ++ [v]) h
      refine ⟨j + 1, Nat.succ_lt_succ hj, ?_⟩
      rw [← hje]; congr 1; push_cast; ring

/-! ## The points after the first loop -/

theorem normalise_getElem? (M : Int) (pts : List (Int × Int)) (j : Nat) :
    (normalise M (toDoubles pts))[j]? =
      (pts[j]?).map fun p => ((p.1 : ℚ), (p.2 : ℚ) * 100 / (M : ℚ)) := by
  simp [normalise, toDoubles, List.getElem?_map]
  cases pts[j]? <;> simp

theorem normalise_getElem?_some (M : Int) (pts : List (Int × Int)) (j : Nat) (q : ℚ × ℚ)
    (h : (normalise M (toDoubles pts))[j]? = some q) :
    ∃ p, pts[j]? = some p ∧ q = ((p.1 : ℚ), (p.2 : ℚ) * 100 / (M : ℚ)) := by
  rw [normalise_getElem?] at h
  cases hp : pts[j]? with
  | none => rw [hp] at h; cases h
  | some p =>
    rw [hp] at h
    simp only [Option.map_some', Option.some.injEq] at h
    exact ⟨p, rfl, h.symm⟩

theorem lineariseMotor_eq (m : List Int) (pts : List (Int × Int)) (last : Int × Int)
    (hlast : pts.getLast? = some last) (hM : last.2 ≠ 0) :
    lineariseMotor m pts =
      match forLoop (normalise last.2 (toDoubles pts)) 100 0 m with
      | .error e => .error e
      | .ok t => .ok (t ++ [100]) := by
  have hne : pts ≠ [] := by
    rintro rfl
    simp at hlast
  have hlen : 0 < pts.length := List.length_pos.mpr hne
  have hidx : ((toDoubles pts).length : Int) - 1 = ((pts.length - 1 : Nat) : Int) := by
    simp [toDoubles]
    omega
  have hat : at? (toDoubles pts) (((toDoubles pts).length : Int) - 1) =
      some ((last.1 : ℚ), (last.2 : ℚ)) := by
    rw [hidx, at?_natCast]
    rw [List.getLast?_eq_getElem?] at hlast
    simp [toDoubles, List.getElem?_map, hlast]
  unfold lineariseMotor
  simp only [hat, toInt_intCast, hM, if_false]
  rfl

/-! ## One iteration on a list that starts at or below zero and ends above it -/

theorem iteration (pts : List (Int × Int)) (first last : Int × Int)
    (hfirst : pts.head? = some first) (hlast : pts.getLast? = some last)
    (h0 : first.2 ≤ 0) (h1 : 0 < last.2) (i : Nat) (hi : i < 100) :
    ∃ (j : Nat) (lo hi : Int × Int), pts[j]? = some lo ∧ pts[j + 1]? = some hi ∧
      (lo.2 : ℚ) * 100 / (last.2 : ℚ) ≤ (i : ℚ) ∧ (i : ℚ) < (hi.2 : ℚ) * 100 / (last.2 : ℚ) ∧
      (∀ (j' : Nat) (q : Int × Int), j' ≤ j → pts[j']? = some q →
        (q.2 : ℚ) * 100 / (last.2 : ℚ) ≤ (i : ℚ)) ∧
      whileLoop (i : Int) (normalise last.2 (toDoubles pts)) 0 = some ((j : Int) + 1) ∧
      loopBody (normalise last.2 (toDoubles pts)) (i : Int) =
        if hi.1 < lo.1 then .error .MalformedConfigException
        else .ok (toInt ((lo.1 : ℚ) + ((hi.1 : ℚ) - (lo.1 : ℚ)) /
          ((hi.2 : ℚ) * 100 / (last.2 : ℚ) - (lo.2 : ℚ) * 100 / (last.2 : ℚ)) *
          ((i : ℚ) - (lo.2 : ℚ) * 100 / (last.2 : ℚ)))) := by
  have hMpos : (0 : ℚ) < (last.2 : ℚ) := by exact_mod_cast h1
  have hfirst' : pts[0]? = some first := by
    rw [← List.head?_eq_getElem?]; exact hfirst
  have hA : ∃ p0, (normalise last.2 (toDoubles pts))[0]? = some p0 ∧ p0.2 ≤ ((i : Int) : ℚ) := by
    refine ⟨((first.1 : ℚ), (first.2 : ℚ) * 100 / (last.2 : ℚ)), ?_, ?_⟩
    · rw [normalise_getElem?, hfirst']; rfl
    · have hf : (first.2 : ℚ) ≤ 0 := by exact_mod_cast h0
      have : (first.2 : ℚ) * 100 / (last.2 : ℚ) ≤ 0 :=
        div_nonpos_of_nonpos_of_nonneg (by linarith) (le_of_lt hMpos)
      have hi0 : (0 : ℚ) ≤ ((i : Int) : ℚ) := by positivity
      exact le_trans this hi0
  have hB : ∃ p ∈ normalise last.2 (toDoubles pts), ((i : Int) : ℚ) < p.2 := by
    refine ⟨((last.1 : ℚ), (last.2 : ℚ) * 100 / (last.2 : ℚ)), ?_, ?_⟩
    · apply List.getElem?_mem (n := pts.length - 1)
      rw [normalise_getElem?, ← List.getLast?_eq_getElem?, hlast]; rfl
    · have : (last.2 : ℚ) * 100 / (last.2 : ℚ) = 100 := by
        field_simp
      simp only [this]
      have : (i : ℚ) < 100 := by exact_mod_cast hi
      simpa using this
  obtain ⟨j, lo, hi', hlo, hhi, hle, hlt, hall, hw, hbody⟩ :=
    loopBody_bracket (normalise last.2 (toDoubles pts)) (i : Int) hA hB
  obtain ⟨plo, hplo, rfl⟩ := normalise_getElem?_some _ _ _ _ hlo
  obtain ⟨phi, hphi, rfl⟩ := normalise_getElem?_some _ _ _ _ hhi
  refine ⟨j, plo, phi, hplo, hphi, ?_, ?_, ?_, hw, ?_⟩
  · simpa using hle
  · simpa using hlt
  · intro j' q hj' hq
    have := hall j' ((q.1 : ℚ), (q.2 : ℚ) * 100 / (last.2 : ℚ)) hj'
      (by rw [normalise_getElem?, hq]; rfl)
    simpa using this
  · rw [hbody]
    simp only [Int.cast_lt, Int.cast_natCast]

/-! ## Interpolation between two points -/

theorem interp_ge_lo {a d x : ℚ} (ha : 0 ≤ a) (hd : 0 < d) (hx : 0 ≤ x) (lo : ℚ) :
    lo ≤ lo + a / d * x := by
  have : 0 ≤ a / d * x := mul_nonneg (div_nonneg ha (le_of_lt hd)) hx
  linarith

theorem interp_le_hi {a d x : ℚ} (ha : 0 ≤ a) (hd : 0 < d) (hx : x ≤ d) (lo : ℚ) :
    lo + a / d * x ≤ lo + a := by
  have h1 : a / d * x ≤ a / d * d :=
    mul_le_mul_of_nonneg_left hx (div_nonneg ha (le_of_lt hd))
  have h2 : a / d * d = a := div_mul_cancel₀ a (ne_of_gt hd)
  linarith

theorem pairwise_getElem? {α : Type} {R : α → α → Prop} {l : List α} (h : l.Pairwise R)
    {a b : Nat} (hab : a < b) {p q : α} (hp : l[a]? = some p) (hq : l[b]? = some q) :
    R p q := by
  obtain ⟨ha, rfl⟩ := List.getElem?_eq_some_iff.mp hp
  obtain ⟨hb, rfl⟩ := List.getElem?_eq_some_iff.mp hq
  exact (List.pairwise_iff_getElem.mp h) a b ha hb hab

/-- On a list of at least two points with increasing measured output, the last
measured output exceeds the first. -/
theorem first_lt_last (pts : List (Int × Int)) (first last : Int × Int)
    (hlen : 2 ≤ pts.length) (hinc : pts.Pairwise fun a b => a.2 < b.2)
    (hfirst : pts.head? = some first) (hlast : pts.getLast? = some last) :
    first.2 < last.2 := by
  rw [List.head?_eq_getElem?] at hfirst
  rw [List.getLast?_eq_getElem?] at hlast
  exact pairwise_getElem? hinc (by omega : 0 < pts.length - 1) hfirst hlast

/-! ## Entries of the table on a list with non-decreasing raw input -/

/-- With non-decreasing raw input every iteration succeeds, and its value lies
between the raw inputs of the two points around magnitude `i`. -/
theorem entry_between (pts : List (Int × Int)) (first last : Int × Int)
    (hraw : pts.Pairwise fun a b => a.1 ≤ b.1)
    (hfirst : pts.head? = some first) (hlast : pts.getLast? = some last)
    (h0 : first.2 ≤ 0) (h1 : 0 < last.2) (i : Nat) (hi : i < 100) :
    ∃ (j : Nat) (lo hi : Int × Int), pts[j]? = some lo ∧ pts[j + 1]? = some hi ∧
      (lo.2 : ℚ) * 100 / (last.2 : ℚ) ≤ (i : ℚ) ∧ (i : ℚ) < (hi.2 : ℚ) * 100 / (last.2 : ℚ) ∧
      (∀ (j' : Nat) (q : Int × Int), j' ≤ j → pts[j']? = some q →
        (q.2 : ℚ) * 100 / (last.2 : ℚ) ≤ (i : ℚ)) ∧
      loopBody (normalise last.2 (toDoubles pts)) (i : Int) =
        .ok (entryOf (normalise last.2 (toDoubles pts)) (i : Int)) ∧
      entryOf (normalise last.2 (toDoubles pts)) (i : Int) =
        toInt ((lo.1 : ℚ) + ((hi.1 : ℚ) - (lo.1 : ℚ)) /
          ((hi.2 : ℚ) * 100 / (last.2 : ℚ) - (lo.2 : ℚ) * 100 / (last.2 : ℚ)) *
          ((i : ℚ) - (lo.2 : ℚ) * 100 / (last.2 : ℚ))) ∧
      lo.1 ≤ entryOf (normalise last.2 (toDoubles pts)) (i : Int) ∧
      entryOf (normalise last.2 (toDoubles pts)) (i : Int) ≤ hi.1 := by
  obtain ⟨j, lo, hi', hlo, hhi, hle, hlt, hall, _, hbody⟩ :=
    iteration pts first last hfirst hlast h0 h1 i hi
  have hrawle : lo.1 ≤ hi'.1 := pairwise_getElem? hraw (Nat.lt_succ_self j) hlo hhi
  rw [if_neg (not_lt.mpr hrawle)] at hbody
  have hentry : entryOf (normalise last.2 (toDoubles pts)) (i : Int) =
      toInt ((lo.1 : ℚ) + ((hi'.1 : ℚ) - (lo.1 : ℚ)) /
          ((hi'.2 : ℚ) * 100 / (last.2 : ℚ) - (lo.2 : ℚ) * 100 / (last.2 : ℚ)) *
          ((i : ℚ) - (lo.2 : ℚ) * 100 / (last.2 : ℚ))) := by
    simp only [entryOf, hbody]
  have ha : (0 : ℚ) ≤ (hi'.1 : ℚ) - (lo.1 : ℚ) := by
    have : (lo.1 : ℚ) ≤ (hi'.1 : ℚ) := by exact_mod_cast hrawle
    linarith
  have hd : (0 : ℚ) < (hi'.2 : ℚ) * 100 / (last.2 : ℚ) - (lo.2 : ℚ) * 100 / (last.2 : ℚ) := by
    linarith
  have hx0 : (0 : ℚ) ≤ (i : ℚ) - (lo.2 : ℚ) * 100 / (last.2 : ℚ) := by linarith
  have hx1 : (i : ℚ) - (lo.2 : ℚ) * 100 / (last.2 : ℚ) ≤
      (hi'.2 : ℚ) * 100 / (last.2 : ℚ) - (lo.2 : ℚ) * 100 / (last.2 : ℚ) := by linarith
  refine ⟨j, lo, hi', hlo, hhi, hle, hlt, hall, ?_, hentry, ?_, ?_⟩
  · rw [hbody, hentry]
  · rw [hentry]
    have := toInt_mono (interp_ge_lo ha hd hx0 (lo.1 : ℚ))
    rwa [toInt_intCast] at this
  · rw [hentry]
    have := toInt_mono (interp_le_hi ha hd hx1 (lo.1 : ℚ))
    have e : (lo.1 : ℚ) + ((hi'.1 : ℚ) - (lo.1 : ℚ)) = ((hi'.1 : Int) : ℚ) := by ring
    rwa [e, toInt_intCast] at this

theorem lineariseMotor_nil (m : List Int) :
    lineariseMotor m [] = .error .IndexOutOfRange := by
  simp [lineariseMotor, toDoubles, at?]

theorem lineariseMotor_zero (m : List Int) (pts : List (Int × Int)) (last : Int × Int)
    (hlast : pts.getLast? = some last) (hM : last.2 = 0) :
    lineariseMotor m pts = .error .NonFinite := by
  have hne : pts ≠ [] := by
    rintro rfl
    simp at hlast
  have hlen : 0 < pts.length := List.length_pos.mpr hne
  have hidx : ((toDoubles pts).length : Int) - 1 = ((pts.length - 1 : Nat) : Int) := by
    simp [toDoubles]
    omega
  have hat : at? (toDoubles pts) (((toDoubles pts).length : Int) - 1) =
      some ((last.1 : ℚ), (last.2 : ℚ)) := by
    rw [hidx, at?_natCast]
    rw [List.getLast?_eq_getElem?] at hlast
    simp [toDoubles, List.getElem?_map, hlast]
  unfold lineariseMotor
  simp only [hat, toInt_intCast, hM, if_true]

/-- A table is returned only from a non-empty list with a non-zero last measured
output, and it is the result of the filling loop followed by `maxControlValue`. -/
theorem lineariseMotor_ok_inv (m t : List Int) (pts : List (Int × Int))
    (h : lineariseMotor m pts = .ok t) :
    ∃ (last : Int × Int) (t' : List Int), pts.getLast? = some last ∧ last.2 ≠ 0 ∧
      forLoop (normalise last.2 (toDoubles pts)) 100 0 m = .ok t' ∧ t = t' ++ [100] := by
  cases hl : pts.getLast? with
  | none =>
    have : pts = [] := List.getLast?_eq_none_iff.mp hl
    subst this
    rw [lineariseMotor_nil] at h
    cases h
  | some last =>
    by_cases hM : last.2 = 0
    · rw [lineariseMotor_zero m pts last hl hM] at h
      cases h
    · rw [lineariseMotor_eq m pts last hl hM] at h
      cases hf : forLoop (normalise last.2 (toDoubles pts)) 100 0 m with
      | error e => rw [hf] at h; cases h
      | ok t' =>
        rw [hf] at h
        simp only [Except.ok.injEq] at h
        exact ⟨last, t', rfl, hM, hf, h.symm⟩

/-- With non-decreasing raw input, a first measured output at or below zero and a
positive last one, the table is built, and its entries are the values of the
hundred iterations followed by `maxControlValue`. -/
theorem lineariseMotor_ok (m : List Int) (pts : List (Int × Int)) (first last : Int × Int)
    (hraw : pts.Pairwise fun a b => a.1 ≤ b.1)
    (hfirst : pts.head? = some first) (hlast : pts.getLast? = some last)
    (h0 : first.2 ≤ 0) (h1 : 0 < last.2) :
    lineariseMotor m pts =
      .ok (m ++ ((List.range 100).map fun (j : Nat) =>
        entryOf (normalise last.2 (toDoubles pts)) (j : Int)) ++ [100]) := by
  rw [lineariseMotor_eq m pts last hlast (ne_of_gt h1)]
  have hall : ∀ j : Nat, j < 100 →
      ∃ v, loopBody (normalise last.2 (toDoubles pts)) (0 + (j : Int)) = .ok v := by
    intro j hj
    obtain ⟨_, _, _, _, _, _, _, _, hbody, _⟩ :=
      entry_between pts first last hraw hfirst hlast h0 h1 j hj
    rw [zero_add]
    exact ⟨_, hbody⟩
  rw [forLoop_ok _ 100 0 m hall]
  simp only [zero_add, List.append_assoc]

theorem pairwise_raw_le {pts : List (Int × Int)}
    (hinc : pts.Pairwise fun a b => a.1 < b.1 ∧ a.2 < b.2) :
    pts.Pairwise fun a b => a.1 ≤ b.1 :=
  hinc.imp fun h => le_of_lt h.1

theorem pairwise_measured_lt {pts : List (Int × Int)}
    (hinc : pts.Pairwise fun a b => a.1 < b.1 ∧ a.2 < b.2) :
    pts.Pairwise fun a b => a.2 < b.2 :=
  hinc.imp fun h => h.2

theorem table_getElem? (f : Nat → Int) (i : Nat) (hi : i < 100) :
    (((List.range 100).map f) ++ [(100 : Int)])[i]? = some (f i) := by
  rw [List.getElem?_append_left (by simpa using hi)]
  simp [List.getElem?_map, List.getElem?_range hi]

theorem forLoop_error_exists (pa : List (ℚ × ℚ)) (e : Exception) :
    ∀ (n : Nat) (i : Int) (m : List Int),
      (∀ j : Nat, j < n →
        (∃ v, loopBody pa (i + (j : Int)) = .ok v) ∨ loopBody pa (i + (j : Int)) = .error e) →
      (∃ j : Nat, j < n ∧ loopBody pa (i + (j : Int)) = .error e) →
      forLoop pa n i m = .error e := by
  intro n
  induction n with
  | zero =>
    intro i m _ hex
    obtain ⟨j, hj, _⟩ := hex
    omega
  | succ n ih =>
    intro i m hall hex
    unfold forLoop
    rcases hall 0 (Nat.succ_pos n) with ⟨v, hv⟩ | he
    · simp only [Nat.cast_zero, add_zero] at hv
      rw [hv]
      simp only
      apply ih (i + 1) (m ++ [v])
      · intro j hj
        have := hall (j + 1) (Nat.succ_lt_succ hj)
        have e1 : i + ((j + 1 : Nat) : Int) = i + 1 + (j : Int) := by push_cast; ring
        rwa [e1] at this
      · obtain ⟨j, hj, hje⟩ := hex
        cases j with
        | zero =>
          simp only [Nat.cast_zero, add_zero] at hje
          rw [hv] at hje
          cases hje
        | succ j =>
          refine ⟨j, by omega, ?_⟩
          have e1 : i + ((j + 1 : Nat) : Int) = i + 1 + (j : Int) := by push_cast; ring
          rwa [e1] at hje
    · simp only [Nat.cast_zero, add_zero] at he
      rw [he]

/-- On a list that starts at or below zero and ends above it, the construction
throws `MalformedConfigException` as soon as one magnitude's pair has a
decreasing raw input. -/
theorem lineariseMotor_malformed_of (m : List Int) (pts : List (Int × Int))
    (first last : Int × Int)
    (hfirst : pts.head? = some first) (hlast : pts.getLast? = some last)
    (h0 : first.2 ≤ 0) (h1 : 0 < last.2)
    (hex : ∃ i : Nat, i < 100 ∧
      loopBody (normalise last.2 (toDoubles pts)) (i : Int) = .error .MalformedConfigException) :
    lineariseMotor m pts = .error .MalformedConfigException := by
  rw [lineariseMotor_eq m pts last hlast (ne_of_gt h1)]
  have hall : ∀ j : Nat, j < 100 →
      (∃ v, loopBody (normalise last.2 (toDoubles pts)) (0 + (j : Int)) = .ok v) ∨
      loopBody (normalise last.2 (toDoubles pts)) (0 + (j : Int)) =
        .error .MalformedConfigException := by
    intro j hj
    obtain ⟨_, lo, hi, _, _, _, _, _, _, hbody⟩ :=
      iteration pts first last hfirst hlast h0 h1 j hj
    rw [zero_add, hbody]
    by_cases h : hi.1 < lo.1
    · right; rw [if_pos h]
    · left; rw [if_neg h]; exact ⟨_, rfl⟩
  have hex' : ∃ j : Nat, j < 100 ∧
      loopBody (normalise last.2 (toDoubles pts)) (0 + (j : Int)) =
        .error .MalformedConfigException := by
    obtain ⟨i, hi, he⟩ := hex
    exact ⟨i, hi, by rw [zero_add]; exact he⟩
  rw [forLoop_error_exists _ _ 100 0 m hall hex']

/-! ## Bytes and the `setPower` command -/

theorem at?_getD (v : List Int) (k : Int) (h0 : 0 ≤ k) (h1 : k.toNat < v.length) :
    at? v k = some (v.getD k.toNat 0) := by
  unfold at?
  rw [if_neg (not_lt.mpr h0), List.getElem?_eq_getElem h1, List.getD_eq_getElem v 0 h1]

theorem toChar_and0xFF (x : Int) : toChar (and0xFF x) = (x % 256).toNat := by
  unfold toChar and0xFF
  rw [Int.emod_emod_of_dvd x (dvd_refl 256)]

theorem toChar_lt (x : Int) : toChar x < 256 := by
  unfold toChar
  omega

theorem littleEndian16 (c : Int) (h0 : 0 ≤ c) (h1 : c ≤ 65535) :
    ((toChar (and0xFF c) : Nat) : Int) + 256 * ((toChar (and0xFF (shr8 c)) : Nat) : Int) = c := by
  rw [toChar_and0xFF, toChar_and0xFF]
  unfold shr8
  omega

theorem asSigned_toChar_and0xFF (x : Int) :
    (asSigned (toChar (and0xFF x)) - x) % 256 = 0 ∧
      (-128 ≤ x → x ≤ 127 → asSigned (toChar (and0xFF x)) = x) := by
  rw [toChar_and0xFF]
  unfold asSigned
  constructor
  · split <;> omega
  · intro h0 h1
    split <;> omega

/-- The effect of `setPower(p, true)` on a driver with a full table, for `p` in
the control range: the power is stored, and one command of three bytes is sent,
whose last byte is the low byte of the calibrated power. -/
theorem setPower_true (s : PowerMotor) (p : Int) (hlen : s.mPowerMap.length = 101)
    (hmin : -100 ≤ p) (hmax : p ≤ 100) :
    s.setPower p true =
      ⟨{ s with
          mCurrentPower := p
          mCommunicator := s.mCommunicator ++
            [[toChar (and0xFF s.mMspCommandNumber),
              toChar (and0xFF (shr8 s.mMspCommandNumber)),
              toChar (and0xFF (calibratedPower s.mPowerMap s.mInvert p))]] }, none⟩ := by
  unfold PowerMotor.setPower calibratedPower
  by_cases hp : p ≤ 0
  · have hat := at?_getD s.mPowerMap (-p) (by omega) (by omega)
    have hnp : ¬ p > 0 := by omega
    simp only [Bool.not_true, Bool.false_eq_true, if_false, hp, if_true, hat, Option.map_some',
      hnp]
  · have hat := at?_getD s.mPowerMap p (by omega) (by omega)
    have hpp : p > 0 := by omega
    simp only [Bool.not_true, Bool.false_eq_true, if_false, hp, hat, hpp, if_true]

/-- The constructor returns only drivers whose table has 101 entries. -/
theorem ctor_table_length (invert : String) (c period : Int) (measures : List (Int × Int))
    (communicator : List (List Nat)) (s : PowerMotor)
    (h : PowerMotor.ctor invert c period measures communicator = .ok s) :
    s.mPowerMap.length = 101 := by
  unfold PowerMotor.ctor at h
  simp only [PowerMotor.setPeriod] at h
  cases hl : lineariseMotor [] measures with
  | error e => rw [hl] at h; cases h
  | ok t =>
    rw [hl] at h
    simp only [Except.ok.injEq] at h
    obtain ⟨last, t', _, _, hf, rfl⟩ := lineariseMotor_ok_inv [] t measures hl
    have := forLoop_length _ 100 0 [] t' hf
    rw [← h]
    simp [this]

/-! ## Splitting and reading numbers -/

theorem split_noSep (sep : Char) :
    ∀ w : QString, (∀ c ∈ w, c ≠ sep) → QString.split sep w = [w] := by
  intro w
  induction w with
  | nil => intro _; rfl
  | cons c cs ih =>
    intro h
    have hc : c ≠ sep := h c (List.mem_cons_self c cs)
    have hcs : ∀ d ∈ cs, d ≠ sep := fun d hd => h d (List.mem_cons_of_mem c hd)
    simp only [QString.split, if_neg hc, ih hcs]

theorem split_append (sep : Char) (rest : QString) :
    ∀ w : QString, (∀ c ∈ w, c ≠ sep) →
      QString.split sep (w ++ sep :: rest) = w :: QString.split sep rest := by
  intro w
  induction w with
  | nil => intro _; simp [QString.split]
  | cons c cs ih =>
    intro h
    have hc : c ≠ sep := h c (List.mem_cons_self c cs)
    have hcs : ∀ d ∈ cs, d ≠ sep := fun d hd => h d (List.mem_cons_of_mem c hd)
    have hih : QString.split sep (cs.append (sep :: rest)) = cs :: QString.split sep rest :=
      ih hcs
    simp only [List.cons_append, QString.split, if_neg hc]
    rw [hih]

theorem digitChar_facts (d : Nat) (hd : d < 10) :
    (Nat.digitChar d).isDigit = true ∧ (Nat.digitChar d).toNat - 48 = d ∧
      isSpace (Nat.digitChar d) = false ∧ Nat.digitChar d ≠ ')' ∧ Nat.digitChar d ≠ ';' ∧
      Nat.digitChar d ≠ '-' ∧ Nat.digitChar d ≠ '+' := by
  interval_cases d <;> decide

theorem digitsRev_mem :
    ∀ (fuel n : Nat) (c : Char), c ∈ digitsRev fuel n → ∃ d, d < 10 ∧ c = Nat.digitChar d := by
  intro fuel
  induction fuel with
  | zero => intro n c h; simp [digitsRev] at h
  | succ fuel ih =>
    intro n c h
    unfold digitsRev at h
    rcases List.mem_cons.mp h with rfl | h
    · exact ⟨n % 10, Nat.mod_lt n (by decide), rfl⟩
    · by_cases hz : n / 10 = 0
      · rw [if_pos hz] at h; simp at h
      · rw [if_neg hz] at h; exact ih (n / 10) c h

theorem digitsValue_snoc (c : Char) :
    ∀ (l : QString) (acc : Nat),
      digitsValue acc (l ++ [c]) =
        (digitsValue acc l).bind fun v =>
          if c.isDigit then some (v * 10 + (c.toNat - 48)) else none := by
  intro l
  induction l with
  | nil => intro acc; simp [digitsValue]
  | cons x xs ih =>
    intro acc
    simp only [List.cons_append, digitsValue]
    by_cases hx : x.isDigit
    · simp only [hx, if_true]; exact ih _
    · simp only [hx]; rfl

theorem digitsValue_digitsRev :
    ∀ (fuel n : Nat), n < fuel → digitsValue 0 (digitsRev fuel n).reverse = some n := by
  intro fuel
  induction fuel with
  | zero => intro n h; omega
  | succ fuel ih =>
    intro n h
    obtain ⟨hdig, hval, _⟩ := digitChar_facts (n % 10) (Nat.mod_lt n (by decide))
    unfold digitsRev
    rw [List.reverse_cons, digitsValue_snoc]
    by_cases hz : n / 10 = 0
    · rw [if_pos hz]
      simp only [List.reverse_nil, digitsValue, Option.some_bind, hdig, if_true, hval]
      congr 1
      omega
    · rw [if_neg hz, ih (n / 10) (by omega)]
      simp only [Option.some_bind, hdig, if_true, hval]
      congr 1
      omega

theorem formatNat_mem (n : Nat) (c : Char) (h : c ∈ formatNat n) :
    ∃ d, d < 10 ∧ c = Nat.digitChar d := by
  unfold formatNat at h
  exact digitsRev_mem (n + 1) n c (List.mem_reverse.mp h)

theorem formatNat_ne_nil (n : Nat) : formatNat n ≠ [] := by
  unfold formatNat digitsRev
  simp

theorem digitsValue_formatNat (n : Nat) : digitsValue 0 (formatNat n) = some n :=
  digitsValue_digitsRev (n + 1) n (Nat.lt_succ_self n)

theorem formatInt_mem (z : Int) (c : Char) (h : c ∈ formatInt z) :
    c ≠ ')' ∧ c ≠ ';' ∧ isSpace c = false := by
  unfold formatInt at h
  have hdigit : c ∈ formatNat z.natAbs → c ≠ ')' ∧ c ≠ ';' ∧ isSpace c = false := by
    intro hc
    obtain ⟨d, hd, rfl⟩ := formatNat_mem _ c hc
    obtain ⟨_, _, h3, h4, h5, _⟩ := digitChar_facts d hd
    exact ⟨h4, h5, h3⟩
  by_cases hz : z < 0
  · rw [if_pos hz] at h
    rcases List.mem_cons.mp h with rfl | h
    · exact ⟨by decide, by decide, by decide⟩
    · exact hdigit h
  · rw [if_neg hz] at h
    exact hdigit h

theorem dropWhile_none {p : Char → Bool} :
    ∀ l : QString, (∀ c ∈ l, p c = false) → l.dropWhile p = l := by
  intro l h
  cases l with
  | nil => rfl
  | cons c cs => simp [List.dropWhile, h c (List.mem_cons_self c cs)]

theorem trimmed_formatInt (z : Int) : trimmed (formatInt z) = formatInt z := by
  unfold trimmed
  rw [dropWhile_none _ fun c hc => (formatInt_mem z c hc).2.2]
  rw [dropWhile_none _ fun c hc => (formatInt_mem z c (List.mem_reverse.mp hc)).2.2]
  exact List.reverse_reverse _

/-- Reading the decimal text of a 32-bit integer gives the integer back. -/
theorem toInt_formatInt (z : Int) (h0 : -2147483648 ≤ z) (h1 : z ≤ 2147483647) :
    QString.toInt (formatInt z) = z := by
  unfold QString.toInt
  rw [trimmed_formatInt]
  obtain ⟨c, cs, hcs⟩ := List.exists_cons_of_ne_nil (formatNat_ne_nil z.natAbs)
  have hcmem : c ∈ formatNat z.natAbs := by rw [hcs]; exact List.mem_cons_self c cs
  obtain ⟨d, hd, hcd⟩ := formatNat_mem _ c hcmem
  obtain ⟨_, _, _, _, _, hminus, hplus⟩ := digitChar_facts d hd
  rw [← hcd] at hminus hplus
  have hval := digitsValue_formatNat z.natAbs
  by_cases hz : z < 0
  · have hf : formatInt z = '-' :: formatNat z.natAbs := by
      unfold formatInt; rw [if_pos hz]
    rw [hf]
    simp only [List.head?_cons, decide_True, Bool.true_or, if_true, List.drop_succ_cons,
      List.drop_zero, formatNat_ne_nil, if_false, hval]
    have : -((z.natAbs : Nat) : Int) = z := by omega
    rw [this]
    simp [h0, h1]
  · have hf : formatInt z = formatNat z.natAbs := by
      unfold formatInt; rw [if_neg hz]
    rw [hf, hcs]
    have h1' : ¬ (some c = some '-') := by
      intro h; exact hminus (Option.some.inj h)
    have h2' : ¬ (some c = some '+') := by
      intro h; exact hplus (Option.some.inj h)
    simp only [List.head?_cons, h1', h2', decide_False, Bool.or_self, Bool.false_eq_true,
      if_false]
    rw [← hcs, hval]
    have : ((z.natAbs : Nat) : Int) = z := by omega
    simp only [this]
    simp [h0, h1, formatNat_ne_nil z.natAbs]

/-! ## Parsing the text of a list of points -/

theorem groupBody_mem (p : Int × Int) (c : Char) (h : c ∈ groupBody p) : c ≠ ')' := by
  unfold groupBody at h
  rcases List.mem_cons.mp h with rfl | h
  · decide
  · rcases List.mem_append.mp h with h | h
    · exact (formatInt_mem p.1 c h).1
    · rcases List.mem_cons.mp h with rfl | h
      · decide
      · exact (formatInt_mem p.2 c h).1

theorem split_formatMeasures :
    ∀ pts : List (Int × Int),
      QString.split ')' (formatMeasures pts) = pts.map groupBody ++ [[]] := by
  intro pts
  induction pts with
  | nil => rfl
  | cons p rest ih =>
    simp only [formatMeasures, List.map_cons, List.cons_append]
    rw [split_append ')' _ (groupBody p) (groupBody_mem p), ih]

theorem split_groupBody (p : Int × Int) :
    QString.split ';' (QString.mid1 (groupBody p)) = [formatInt p.1, formatInt p.2] := by
  have h1 : QString.mid1 (groupBody p) = formatInt p.1 ++ ';' :: formatInt p.2 := by
    simp [QString.mid1, groupBody]
  rw [h1, split_append ';' _ (formatInt p.1) fun c hc => (formatInt_mem p.1 c hc).2.1,
    split_noSep ';' (formatInt p.2) fun c hc => (formatInt_mem p.2 c hc).2.1]

theorem parseLoop_groups :
    ∀ (pts acc : List (Int × Int)),
      (∀ p ∈ pts, (-2147483648 ≤ p.1 ∧ p.1 ≤ 2147483647) ∧
        (-2147483648 ≤ p.2 ∧ p.2 ≤ 2147483647)) →
      parseLoop (pts.map groupBody ++ [[]]) acc = .ok (acc ++ pts) := by
  intro pts
  induction pts with
  | nil => intro acc _; simp [parseLoop]
  | cons p rest ih =>
    intro acc h
    obtain ⟨⟨a0, a1⟩, ⟨b0, b1⟩⟩ := h p (List.mem_cons_self p rest)
    have hrest := ih (acc ++ [p]) fun q hq => h q (List.mem_cons_of_mem p hq)
    have hne : groupBody p ≠ [] := by simp [groupBody]
    have e0 : at? [formatInt p.1, formatInt p.2] 0 = some (formatInt p.1) := by
      simp [at?]
    have e1 : at? [formatInt p.1, formatInt p.2] 1 = some (formatInt p.2) := by
      simp [at?]
    simp only [List.map_cons, List.cons_append, parseLoop, hne, ne_eq, not_false_eq_true,
      if_true, split_groupBody, e0, e1, toInt_formatInt p.1 a0 a1, toInt_formatInt p.2 b0 b1]
    have hrest' : parseLoop ((List.map groupBody rest).append [[]]) (acc ++ [(p.1, p.2)]) =
        Except.ok (acc ++ [p] ++ rest) := hrest
    rw [hrest']
    simp

/-! ## Symmetry of the calibrated power -/

theorem calibratedPower_neg (table : List Int) (invert : Bool) (p : Int) (hp : 1 ≤ p) :
    calibratedPower table invert (-p) = -calibratedPower table invert p := by
  have h1 : p > 0 := by omega
  have h2 : ¬ (-p > 0) := by omega
  unfold calibratedPower
  simp only [h1, h2, if_true, if_false, neg_neg]
  cases invert <;> simp

theorem calibratedPower_invert (table : List Int) (p : Int) (hp : 1 ≤ p) :
    calibratedPower table true p = calibratedPower table false (-p) := by
  have h1 : p > 0 := by omega
  have h2 : ¬ (-p > 0) := by omega
  unfold calibratedPower
  simp [h1, h2]

theorem toChar_and0xFF_neg (x : Int) :
    (toChar (and0xFF x) + toChar (and0xFF (-x))) % 256 = 0 := by
  rw [toChar_and0xFF, toChar_and0xFF]
  omega

/-! ## The constructed driver -/

theorem ctor_ok (invert : String) (c period : Int) (pts : List (Int × Int))
    (comm : List (List Nat)) (t : List Int) (h : lineariseMotor [] pts = .ok t) :
    PowerMotor.ctor invert c period pts comm =
      .ok ⟨invert == "false", c, period, 0, t,
        comm ++ [[toChar (and0xFF (c - 4)), 0, toChar (and0xFF period), toChar (shr8 period)]]⟩ := by
  unfold PowerMotor.ctor
  simp only [PowerMotor.setPeriod, h]

theorem ctor_ok_inv (invert : String) (c period : Int) (pts : List (Int × Int))
    (comm : List (List Nat)) (s : PowerMotor)
    (h : PowerMotor.ctor invert c period pts comm = .ok s) :
    ∃ t, lineariseMotor [] pts = .ok t ∧
      s = ⟨invert == "false", c, period, 0, t,
        comm ++ [[toChar (and0xFF (c - 4)), 0, toChar (and0xFF period), toChar (shr8 period)]]⟩ := by
  cases hl : lineariseMotor [] pts with
  | error e =>
    unfold PowerMotor.ctor at h
    simp only [PowerMotor.setPeriod, hl] at h
    cases h
  | ok t =>
    rw [ctor_ok invert c period pts comm t hl] at h
    simp only [Except.ok.injEq] at h
    exact ⟨t, rfl, h.symm⟩

/-! ## Lists that start at measured output 0 -/

/-- A strictly increasing list that starts at measured output 0 and whose last
measured output is not 0 ends above 0. -/
theorem last_pos (pts : List (Int × Int)) (first last : Int × Int)
    (hinc : pts.Pairwise fun a b => a.1 < b.1 ∧ a.2 < b.2)
    (hfirst : pts.head? = some first) (hlast : pts.getLast? = some last)
    (h0 : first.2 = 0) (hne : last.2 ≠ 0) : 0 < last.2 := by
  match pts, hinc, hfirst, hlast with
  | [], _, hfirst, _ => simp at hfirst
  | [p], _, hfirst, hlast =>
    simp at hfirst hlast
    rw [← hlast, hfirst] at hne
    exact absurd h0 hne
  | p :: q :: rest, hinc, hfirst, hlast =>
    have := first_lt_last (p :: q :: rest) first last (by simp)
      (pairwise_measured_lt hinc) hfirst hlast
    omega

/-- The table built from a list with non-decreasing raw input, read at a
magnitude below 100. -/
theorem table_entry (pts : List (Int × Int)) (first last : Int × Int)
    (hraw : pts.Pairwise fun a b => a.1 ≤ b.1)
    (hfirst : pts.head? = some first) (hlast : pts.getLast? = some last)
    (h0 : first.2 ≤ 0) (h1 : 0 < last.2) (t : List Int)
    (ht : lineariseMotor [] pts = .ok t) (i : Nat) (hi : i < 100) :
    t[i]? = some (entryOf (normalise last.2 (toDoubles pts)) (i : Int)) := by
  rw [lineariseMotor_ok [] pts first last hraw hfirst hlast h0 h1] at ht
  simp only [Except.ok.injEq] at ht
  rw [← ht, List.nil_append, table_getElem? _ i hi]

/-! ## Rounding to `double` -/

theorem bits_spec :
    ∀ (fuel n : Nat), n ≤ fuel → n ≠ 0 → 2 ^ bits fuel n ≤ 2 * n ∧ n < 2 ^ bits fuel n := by
  intro fuel
  induction fuel with
  | zero => intro n h hn; omega
  | succ fuel ih =>
    intro n h hn
    unfold bits
    rw [if_neg hn]
    by_cases h2 : n / 2 = 0
    · have hn1 : n = 1 := by omega
      subst hn1
      have hb : bits fuel (1 / 2) = 0 := by
        cases fuel with
        | zero => rfl
        | succ f => simp [bits]
      rw [hb]
      decide
    · obtain ⟨ha, hb⟩ := ih (n / 2) (by omega) h2
      rw [pow_succ]
      constructor <;> omega

theorem bitLength_spec (n : Nat) (hn : n ≠ 0) :
    2 ^ bitLength n ≤ 2 * n ∧ n < 2 ^ bitLength n :=
  bits_spec n n (Nat.le_refl n) hn

theorem two_zpow_pos (k : Int) : (0 : ℚ) < (2 : ℚ) ^ k := zpow_pos (by norm_num) k

theorem quotient_bracket (n d a b : Nat) (hd : 0 < d)
    (ha1 : 2 ^ a ≤ 2 * n) (ha2 : n < 2 ^ a) (hb1 : 2 ^ b ≤ 2 * d) (hb2 : d < 2 ^ b) :
    (2 : ℚ) ^ ((a : Int) - (b : Int) - 1) ≤ (n : ℚ) / (d : ℚ) ∧
      (n : ℚ) / (d : ℚ) < (2 : ℚ) ^ ((a : Int) - (b : Int) + 1) := by
  have hdpos : (0 : ℚ) < (d : ℚ) := by exact_mod_cast hd
  have two_ne : (2 : ℚ) ≠ 0 := by norm_num
  have ha1q : (2 : ℚ) ^ a ≤ 2 * (n : ℚ) := by exact_mod_cast ha1
  have ha2q : (n : ℚ) < (2 : ℚ) ^ a := by exact_mod_cast ha2
  have hb1q : (2 : ℚ) ^ b ≤ 2 * (d : ℚ) := by exact_mod_cast hb1
  have hb2q : (d : ℚ) < (2 : ℚ) ^ b := by exact_mod_cast hb2
  have hpa : (0 : ℚ) < (2 : ℚ) ^ a := by positivity
  have hpb : (0 : ℚ) < (2 : ℚ) ^ b := by positivity
  have hn : (0 : ℚ) < (n : ℚ) := by linarith
  have he0 : (2 : ℚ) ^ ((a : Int) - (b : Int)) = (2 : ℚ) ^ a / (2 : ℚ) ^ b := by
    rw [zpow_sub₀ two_ne, zpow_natCast, zpow_natCast]
  constructor
  · rw [zpow_sub₀ two_ne, he0, zpow_one, div_div, div_le_div_iff₀ (by positivity) hdpos]
    nlinarith
  · rw [zpow_add_one₀ two_ne, he0, div_mul_eq_mul_div, div_lt_div_iff₀ hdpos hpb]
    nlinarith

/-- The exponent computed by `binade` brackets a positive rational between two
consecutive powers of two. -/
theorem binade_spec (x : ℚ) (hx : 0 < x) :
    (2 : ℚ) ^ binade x ≤ x ∧ x < (2 : ℚ) ^ (binade x + 1) := by
  have hnum : 0 < x.num := Rat.num_pos.mpr hx
  have hn0 : x.num.natAbs ≠ 0 := by omega
  have hd0 : x.den ≠ 0 := x.den_nz
  obtain ⟨ha1, ha2⟩ := bitLength_spec x.num.natAbs hn0
  obtain ⟨hb1, hb2⟩ := bitLength_spec x.den hd0
  have hxeq : (x.num.natAbs : ℚ) / (x.den : ℚ) = x := by
    have h1 : ((x.num.natAbs : Nat) : ℚ) = ((x.num : Int) : ℚ) := by
      rw [Nat.cast_natAbs, abs_of_pos hnum]
    rw [h1]
    exact Rat.num_div_den x
  obtain ⟨hlower, hupper⟩ := quotient_bracket x.num.natAbs x.den _ _
    (Nat.pos_of_ne_zero hd0) ha1 ha2 hb1 hb2
  rw [hxeq] at hlower hupper
  unfold binade
  simp only
  by_cases h : (2 : ℚ) ^ ((bitLength x.num.natAbs : Int) - (bitLength x.den : Int)) ≤ x
  · rw [if_pos h]
    exact ⟨h, hupper⟩
  · rw [if_neg h]
    refine ⟨hlower, ?_⟩
    rw [sub_add_cancel]
    exact not_le.mp h

/-- Two exponents that bracket the same positive rational are equal. -/
theorem binade_unique (x : ℚ) (e : Int) (h1 : (2 : ℚ) ^ e ≤ x) (h2 : x < (2 : ℚ) ^ (e + 1))
    (hx : 0 < x) : binade x = e := by
  obtain ⟨b1, b2⟩ := binade_spec x hx
  have one_lt : (1 : ℚ) < 2 := by norm_num
  have ha : binade x < e + 1 :=
    (zpow_lt_zpow_iff_right₀ one_lt).mp (lt_of_le_of_lt b1 h2)
  have hb : e < binade x + 1 :=
    (zpow_lt_zpow_iff_right₀ one_lt).mp (lt_of_le_of_lt h1 b2)
  omega

theorem binade_mono (x y : ℚ) (hx : 0 < x) (hxy : x ≤ y) : binade x ≤ binade y := by
  obtain ⟨b1, _⟩ := binade_spec x hx
  obtain ⟨_, c2⟩ := binade_spec y (lt_of_lt_of_le hx hxy)
  have one_lt : (1 : ℚ) < 2 := by norm_num
  have : binade x < binade y + 1 :=
    (zpow_lt_zpow_iff_right₀ one_lt).mp (lt_of_le_of_lt (le_trans b1 hxy) c2)
  omega

theorem roundHalfEven_intCast (n : Int) : roundHalfEven (n : ℚ) = n := by
  unfold roundHalfEven
  simp

theorem roundHalfEven_floor_le (y : ℚ) : ⌊y⌋ ≤ roundHalfEven y := by
  unfold roundHalfEven
  split
  · exact le_refl _
  · split
    · omega
    · split <;> omega

theorem roundHalfEven_le_floor_succ (y : ℚ) : roundHalfEven y ≤ ⌊y⌋ + 1 := by
  unfold roundHalfEven
  split
  · omega
  · split
    · exact le_refl _
    · split <;> omega

theorem roundHalfEven_mono {y z : ℚ} (h : y ≤ z) : roundHalfEven y ≤ roundHalfEven z := by
  have hfl : ⌊y⌋ ≤ ⌊z⌋ := Int.floor_mono h
  rcases lt_or_eq_of_le hfl with hlt | heq
  · calc roundHalfEven y ≤ ⌊y⌋ + 1 := roundHalfEven_le_floor_succ y
      _ ≤ ⌊z⌋ := hlt
      _ ≤ roundHalfEven z := roundHalfEven_floor_le z
  · have hfrac : y - (⌊y⌋ : ℚ) ≤ z - (⌊z⌋ : ℚ) := by rw [heq]; linarith
    unfold roundHalfEven
    rw [heq]
    by_cases h1 : y - (⌊y⌋ : ℚ) < 1 / 2
    · rw [heq] at h1
      rw [if_pos h1]
      split
      · exact le_refl _
      · split
        · omega
        · split <;> omega
    · rw [heq] at h1 hfrac
      rw [if_neg h1]
      have h1z : ¬ (z - (⌊z⌋ : ℚ) < 1 / 2) := by
        intro hc; apply h1; linarith
      rw [if_neg h1z]
      by_cases h2 : 1 / 2 < y - (⌊z⌋ : ℚ)
      · have h2z : 1 / 2 < z - (⌊z⌋ : ℚ) := lt_of_lt_of_le h2 hfrac
        rw [if_pos h2, if_pos h2z]
      · rw [if_neg h2]
        by_cases h2z : 1 / 2 < z - (⌊z⌋ : ℚ)
        · rw [if_pos h2z]
          split <;> omega
        · rw [if_neg h2z]

/-- For a positive `x`, the scaled value lies between `2^52` and `2^53`. -/
theorem scaled_bounds (x : ℚ) (hx : 0 < x) :
    (((2 : Int) ^ 52 : Int) : ℚ) ≤ x * (2 : ℚ) ^ (52 - binade x) ∧
      x * (2 : ℚ) ^ (52 - binade x) ≤ (((2 : Int) ^ 53 : Int) : ℚ) := by
  obtain ⟨h1, h2⟩ := binade_spec x hx
  have two_ne : (2 : ℚ) ≠ 0 := by norm_num
  have hs : (0 : ℚ) < (2 : ℚ) ^ (52 - binade x) := two_zpow_pos _
  have e1 : (2 : ℚ) ^ binade x * (2 : ℚ) ^ (52 - binade x) = (((2 : Int) ^ 52 : Int) : ℚ) := by
    rw [← zpow_add₀ two_ne]
    have : binade x + (52 - binade x) = ((52 : Nat) : Int) := by push_cast; ring
    rw [this, zpow_natCast]
    norm_num
  have e2 : (2 : ℚ) ^ (binade x + 1) * (2 : ℚ) ^ (52 - binade x) =
      (((2 : Int) ^ 53 : Int) : ℚ) := by
    rw [← zpow_add₀ two_ne]
    have : binade x + 1 + (52 - binade x) = ((53 : Nat) : Int) := by push_cast; ring
    rw [this, zpow_natCast]
    norm_num
  constructor
  · rw [← e1]
    exact mul_le_mul_of_nonneg_right h1 (le_of_lt hs)
  · rw [← e2]
    exact mul_le_mul_of_nonneg_right (le_of_lt h2) (le_of_lt hs)

/-- The rounded value of a positive `x` stays in the closed binade of `x`. -/
theorem roundPos_bounds (x : ℚ) (hx : 0 < x) :
    (2 : ℚ) ^ binade x ≤ roundPos x ∧ roundPos x ≤ (2 : ℚ) ^ (binade x + 1) := by
  obtain ⟨h1, h2⟩ := scaled_bounds x hx
  have two_ne : (2 : ℚ) ≠ 0 := by norm_num
  have hs : (0 : ℚ) < (2 : ℚ) ^ (52 - binade x) := two_zpow_pos _
  have r1 : ((2 : Int) ^ 52 : Int) ≤ roundHalfEven (x * (2 : ℚ) ^ (52 - binade x)) := by
    have := roundHalfEven_mono h1
    rwa [roundHalfEven_intCast] at this
  have r2 : roundHalfEven (x * (2 : ℚ) ^ (52 - binade x)) ≤ ((2 : Int) ^ 53 : Int) := by
    have := roundHalfEven_mono h2
    rwa [roundHalfEven_intCast] at this
  have r1q : (((2 : Int) ^ 52 : Int) : ℚ) ≤
      (roundHalfEven (x * (2 : ℚ) ^ (52 - binade x)) : ℚ) := by exact_mod_cast r1
  have r2q : (roundHalfEven (x * (2 : ℚ) ^ (52 - binade x)) : ℚ) ≤
      (((2 : Int) ^ 53 : Int) : ℚ) := by exact_mod_cast r2
  have e1 : (2 : ℚ) ^ binade x = (((2 : Int) ^ 52 : Int) : ℚ) / (2 : ℚ) ^ (52 - binade x) := by
    rw [eq_div_iff (ne_of_gt hs), ← zpow_add₀ two_ne]
    have : binade x + (52 - binade x) = ((52 : Nat) : Int) := by push_cast; ring
    rw [this, zpow_natCast]
    norm_num
  have e2 : (2 : ℚ) ^ (binade x + 1) =
      (((2 : Int) ^ 53 : Int) : ℚ) / (2 : ℚ) ^ (52 - binade x) := by
    rw [eq_div_iff (ne_of_gt hs), ← zpow_add₀ two_ne]
    have : binade x + 1 + (52 - binade x) = ((53 : Nat) : Int) := by push_cast; ring
    rw [this, zpow_natCast]
    norm_num
  unfold roundPos
  rw [e1, e2]
  exact ⟨div_le_div_of_nonneg_right r1q (le_of_lt hs), div_le_div_of_nonneg_right r2q (le_of_lt hs)⟩

theorem roundPos_pos (x : ℚ) (hx : 0 < x) : 0 < roundPos x :=
  lt_of_lt_of_le (two_zpow_pos _) (roundPos_bounds x hx).1

theorem roundPos_mono (x y : ℚ) (hx : 0 < x) (hxy : x ≤ y) : roundPos x ≤ roundPos y := by
  have hy : 0 < y := lt_of_lt_of_le hx hxy
  rcases lt_or_eq_of_le (binade_mono x y hx hxy) with hlt | heq
  · calc roundPos x ≤ (2 : ℚ) ^ (binade x + 1) := (roundPos_bounds x hx).2
      _ ≤ (2 : ℚ) ^ binade y := zpow_le_zpow_right₀ (by norm_num) (by omega)
      _ ≤ roundPos y := (roundPos_bounds y hy).1
  · unfold roundPos
    rw [heq]
    have hs : (0 : ℚ) < (2 : ℚ) ^ (52 - binade y) := two_zpow_pos _
    apply div_le_div_of_nonneg_right _ (le_of_lt hs)
    have : roundHalfEven (x * (2 : ℚ) ^ (52 - binade y)) ≤
        roundHalfEven (y * (2 : ℚ) ^ (52 - binade y)) :=
      roundHalfEven_mono (mul_le_mul_of_nonneg_right hxy (le_of_lt hs))
    exact_mod_cast this

/-- A positive number `n * 2^k` whose significand `n` has at most 53 bits is a
`double`: rounding leaves it unchanged. -/
theorem roundPos_exact (n : Nat) (k : Int) (hn0 : 0 < n) (hn : n < 2 ^ 53) :
    roundPos ((n : ℚ) * (2 : ℚ) ^ k) = (n : ℚ) * (2 : ℚ) ^ k := by
  have two_ne : (2 : ℚ) ≠ 0 := by norm_num
  have one_lt : (1 : ℚ) < 2 := by norm_num
  have hnq : (0 : ℚ) < (n : ℚ) := by exact_mod_cast hn0
  have hx : (0 : ℚ) < (n : ℚ) * (2 : ℚ) ^ k := mul_pos hnq (two_zpow_pos k)
  obtain ⟨h1, _⟩ := binade_spec _ hx
  -- the scaling exponent is not negative
  have hk : 0 ≤ k + (52 - binade ((n : ℚ) * (2 : ℚ) ^ k)) := by
    by_contra hneg
    have hle : k + 53 ≤ binade ((n : ℚ) * (2 : ℚ) ^ k) := by omega
    have hlt : (n : ℚ) * (2 : ℚ) ^ k < (2 : ℚ) ^ (k + 53) := by
      have : (2 : ℚ) ^ (k + 53) = (2 : ℚ) ^ (53 : Nat) * (2 : ℚ) ^ k := by
        rw [add_comm, zpow_add₀ two_ne]
        norm_cast
      rw [this]
      apply mul_lt_mul_of_pos_right _ (two_zpow_pos k)
      exact_mod_cast hn
    have := zpow_le_zpow_right₀ (le_of_lt one_lt) hle
    linarith
  obtain ⟨j, hj⟩ := Int.eq_ofNat_of_zero_le hk
  have hscaled : (n : ℚ) * (2 : ℚ) ^ k * (2 : ℚ) ^ (52 - binade ((n : ℚ) * (2 : ℚ) ^ k)) =
      (((n : Int) * (2 : Int) ^ j : Int) : ℚ) := by
    rw [mul_assoc, ← zpow_add₀ two_ne, hj, zpow_natCast]
    push_cast
    ring
  unfold roundPos
  rw [hscaled, roundHalfEven_intCast, ← hscaled]
  field_simp

theorem toDouble_zero : toDouble 0 = 0 := by
  simp [toDouble]

theorem toDouble_pos {x : ℚ} (hx : 0 < x) : 0 < toDouble x := by
  unfold toDouble
  rw [if_pos hx]
  exact roundPos_pos x hx

theorem toDouble_neg {x : ℚ} (hx : x < 0) : toDouble x < 0 := by
  unfold toDouble
  rw [if_neg (not_lt.mpr (le_of_lt hx)), if_pos hx]
  have := roundPos_pos (-x) (by linarith)
  linarith

theorem toDouble_nonneg {x : ℚ} (hx : 0 ≤ x) : 0 ≤ toDouble x := by
  rcases lt_or_eq_of_le hx with h | h
  · exact le_of_lt (toDouble_pos h)
  · rw [← h, toDouble_zero]

theorem toDouble_nonpos {x : ℚ} (hx : x ≤ 0) : toDouble x ≤ 0 := by
  rcases lt_or_eq_of_le hx with h | h
  · exact le_of_lt (toDouble_neg h)
  · rw [h, toDouble_zero]

/-- Rounding to `double` is monotone. -/
theorem toDouble_mono {x y : ℚ} (h : x ≤ y) : toDouble x ≤ toDouble y := by
  rcases lt_trichotomy y 0 with hy | hy | hy
  · have hx : x < 0 := lt_of_le_of_lt h hy
    unfold toDouble
    rw [if_neg (not_lt.mpr (le_of_lt hx)), if_pos hx, if_neg (not_lt.mpr (le_of_lt hy)),
      if_pos hy]
    have := roundPos_mono (-y) (-x) (by linarith) (by linarith)
    linarith
  · rw [hy, toDouble_zero]
    exact toDouble_nonpos (by linarith)
  · rcases lt_or_ge 0 x with hx | hx
    · unfold toDouble
      rw [if_pos hx, if_pos hy]
      exact roundPos_mono x y hx h
    · exact le_trans (toDouble_nonpos hx) (le_of_lt (toDouble_pos hy))

/-- An integer of magnitude below `2^53` is a `double`. -/
theorem toDouble_intCast (z : Int) (h1 : -(2 : Int) ^ 53 < z) (h2 : z < (2 : Int) ^ 53) :
    toDouble (z : ℚ) = (z : ℚ) := by
  rcases lt_trichotomy z 0 with hz | hz | hz
  · have hzq : ((z : Int) : ℚ) < 0 := by exact_mod_cast hz
    unfold toDouble
    rw [if_neg (not_lt.mpr (le_of_lt hzq)), if_pos hzq]
    have hn : (-(z : ℚ)) = ((z.natAbs : Nat) : ℚ) * (2 : ℚ) ^ (0 : Int) := by
      rw [zpow_zero, mul_one, Nat.cast_natAbs, abs_of_neg hz]
      push_cast
      ring
    rw [hn, roundPos_exact z.natAbs 0 (by omega) (by omega), ← hn]
    ring
  · subst hz
    simp [toDouble_zero]
  · have hzq : (0 : ℚ) < ((z : Int) : ℚ) := by exact_mod_cast hz
    unfold toDouble
    rw [if_pos hzq]
    have hn : ((z : Int) : ℚ) = ((z.natAbs : Nat) : ℚ) * (2 : ℚ) ^ (0 : Int) := by
      rw [zpow_zero, mul_one, Nat.cast_natAbs, abs_of_pos hz]
    rw [hn, roundPos_exact z.natAbs 0 (by omega) (by omega)]

/-- The number `i + 2^-31`, for a small natural `i`, is a `double`. -/
theorem toDouble_just_above (i : Nat) (hi : i < 100) :
    toDouble ((i : ℚ) + (2 : ℚ) ^ (-31 : Int)) = (i : ℚ) + (2 : ℚ) ^ (-31 : Int) := by
  have two_ne : (2 : ℚ) ≠ 0 := by norm_num
  have hform : (i : ℚ) + (2 : ℚ) ^ (-31 : Int) =
      ((i * 2 ^ 31 + 1 : Nat) : ℚ) * (2 : ℚ) ^ (-31 : Int) := by
    push_cast
    have : ((2 : ℚ) ^ (31 : Nat)) * (2 : ℚ) ^ (-31 : Int) = 1 := by
      rw [← zpow_natCast, ← zpow_add₀ two_ne]
      norm_num
    calc (i : ℚ) + (2 : ℚ) ^ (-31 : Int)
        = (i : ℚ) * (((2 : ℚ) ^ (31 : Nat)) * (2 : ℚ) ^ (-31 : Int)) + (2 : ℚ) ^ (-31 : Int) := by
          rw [this, mul_one]
      _ = ((i : ℚ) * 2 ^ 31 + 1) * (2 : ℚ) ^ (-31 : Int) := by ring
  have hpos : (0 : ℚ) < (i : ℚ) + (2 : ℚ) ^ (-31 : Int) := by
    have := two_zpow_pos (-31)
    have : (0 : ℚ) ≤ (i : ℚ) := by positivity
    linarith
  unfold toDouble
  rw [if_pos hpos, hform]
  exact roundPos_exact (i * 2 ^ 31 + 1) (-31) (by omega) (by omega)

/-- The normalized output the code stores for measured output `m`: an integer
magnitude compares with it as it does with the exact quotient `m * 100 / M`, for
32-bit `m` and `M`. -/
theorem stored_le_iff (m M : Int) (i : Nat) (hi : i < 100)
    (hm1 : -2147483648 ≤ m) (hm2 : m ≤ 2147483647) (hM0 : 0 < M) (hM : M ≤ 2147483647) :
    toDouble (toDouble ((m : ℚ) * 100) / (M : ℚ)) ≤ (i : ℚ) ↔
      (m : ℚ) * 100 / (M : ℚ) ≤ (i : ℚ) := by
  have hMq : (0 : ℚ) < (M : ℚ) := by exact_mod_cast hM0
  have hprod : toDouble ((m : ℚ) * 100) = (m : ℚ) * 100 := by
    have := toDouble_intCast (m * 100) (by omega) (by omega)
    push_cast at this
    exact this
  have hiq : toDouble ((i : Int) : ℚ) = ((i : Int) : ℚ) :=
    toDouble_intCast (i : Int) (by omega) (by omega)
  rw [hprod]
  constructor
  · intro hle
    by_contra hgt
    have hgt' : (i : ℚ) < (m : ℚ) * 100 / (M : ℚ) := not_le.mp hgt
    -- the quotient exceeds `i` by at least `1 / M`
    have hint : (i : Int) * M + 1 ≤ m * 100 := by
      have : ((i : Int) * M : ℚ) < ((m * 100 : Int) : ℚ) := by
        have := (lt_div_iff₀ hMq).mp hgt'
        push_cast
        linarith
      have : (i : Int) * M < m * 100 := by exact_mod_cast this
      omega
    have hstep : (i : ℚ) + (2 : ℚ) ^ (-31 : Int) ≤ (m : ℚ) * 100 / (M : ℚ) := by
      rw [le_div_iff₀ hMq]
      have h31 : (2 : ℚ) ^ (-31 : Int) * (M : ℚ) ≤ 1 := by
        have hMle : (M : ℚ) ≤ (2 : ℚ) ^ (31 : Nat) := by
          have : M ≤ (2 : Int) ^ 31 := by omega
          exact_mod_cast this
        have two_ne : (2 : ℚ) ≠ 0 := by norm_num
        calc (2 : ℚ) ^ (-31 : Int) * (M : ℚ)
            ≤ (2 : ℚ) ^ (-31 : Int) * (2 : ℚ) ^ (31 : Nat) :=
              mul_le_mul_of_nonneg_left hMle (le_of_lt (two_zpow_pos _))
          _ = 1 := by
              rw [← zpow_natCast, ← zpow_add₀ two_ne]
              norm_num
      have hq : ((i : ℚ) * (M : ℚ) + 1) ≤ (m : ℚ) * 100 := by exact_mod_cast hint
      nlinarith
    have := toDouble_mono hstep
    rw [toDouble_just_above i hi] at this
    have hp := two_zpow_pos (-31)
    linarith
  · intro hle
    have := toDouble_mono hle
    have hi' : toDouble (i : ℚ) = (i : ℚ) := by simpa using hiq
    rwa [hi'] at this

/-! ## The table-filling loop in `double` arithmetic -/

theorem loopBodyDouble_bracket (pa : List (ℚ × ℚ)) (i : Int)
    (h0 : ∃ p0, pa[0]? = some p0 ∧ p0.2 ≤ (i : ℚ)) (hex : ∃ p ∈ pa, (i : ℚ) < p.2) :
    ∃ (j : Nat) (lo hi : ℚ × ℚ), pa[j]? = some lo ∧ pa[j + 1]? = some hi ∧
      lo.2 ≤ (i : ℚ) ∧ (i : ℚ) < hi.2 ∧
      whileLoop i pa 0 = some ((j : Int) + 1) ∧
      loopBodyDouble pa i =
        if toDouble (hi.1 - lo.1) < 0 then .error .MalformedConfigException
        else .ok (toInt (toDouble (lo.1 + toDouble
          (toDouble (toDouble (hi.1 - lo.1) / toDouble (hi.2 - lo.2)) *
            toDouble ((i : ℚ) - lo.2))))) := by
  obtain ⟨j, lo, hi, hlo, hhi, hle, hlt, _, hw, _⟩ := loopBody_bracket pa i h0 hex
  refine ⟨j, lo, hi, hlo, hhi, hle, hlt, hw, ?_⟩
  have e1 : at? pa ((j : Int) + 1 - 1 + 1) = some hi := by
    have : ((j : Int) + 1 - 1 + 1) = ((j + 1 : Nat) : Int) := by push_cast; ring
    rw [this, at?_natCast]; exact hhi
  have e2 : at? pa ((j : Int) + 1 - 1) = some lo := by
    have : ((j : Int) + 1 - 1) = ((j : Nat) : Int) := by ring
    rw [this, at?_natCast]; exact hlo
  have hmd : 0 < toDouble (hi.2 - lo.2) := toDouble_pos (by linarith)
  have hpos : ¬ (toDouble (hi.2 - lo.2) < 0) := not_lt.mpr (le_of_lt hmd)
  have hne : ¬ (toDouble (hi.2 - lo.2) = 0) := ne_of_gt hmd
  unfold loopBodyDouble
  rw [hw]
  simp only [e1, e2, hpos, false_or, hne, if_false]

theorem forLoopDouble_ok (pa : List (ℚ × ℚ)) :
    ∀ (n : Nat) (i : Int) (m : List Int),
      (∀ j : Nat, j < n → ∃ v, loopBodyDouble pa (i + (j : Int)) = .ok v) →
      forLoopDouble pa n i m =
        .ok (m ++ (List.range n).map fun (j : Nat) => entryOfDouble pa (i + (j : Int))) := by
  intro n
  induction n with
  | zero => intro i m _; simp [forLoopDouble]
  | succ n ih =>
    intro i m h
    obtain ⟨v, hv⟩ := h 0 (Nat.succ_pos n)
    simp only [Nat.cast_zero, add_zero] at hv
    have hnext : ∀ j : Nat, j < n → ∃ w, loopBodyDouble pa (i + 1 + (j : Int)) = .ok w := by
      intro j hj
      obtain ⟨w, hw⟩ := h (j + 1) (Nat.succ_lt_succ hj)
      refine ⟨w, ?_⟩
      rw [← hw]; congr 1; push_cast; ring
    have hentry : entryOfDouble pa i = v := by simp [entryOfDouble, hv]
    unfold forLoopDouble
    rw [hv]
    simp only
    rw [ih (i + 1) (m ++ [v]) hnext, List.range_succ_eq_map]
    simp only [List.map_cons, List.map_map, Nat.cast_zero, add_zero, hentry,
      List.append_assoc, List.singleton_append]
    congr 3
    apply List.map_congr_left
    intro j _
    simp only [Function.comp_apply, Nat.succ_eq_add_one]
    congr 1; push_cast; ring

theorem normaliseDouble_getElem? (M : Int) (pts : List (Int × Int)) (j : Nat) :
    (normaliseDouble M (toDoubles pts))[j]? =
      (pts[j]?).map fun p =>
        ((p.1 : ℚ), toDouble (toDouble ((p.2 : ℚ) * 100) / (M : ℚ))) := by
  simp [normaliseDouble, toDoubles, List.getElem?_map]
  cases pts[j]? <;> simp

theorem normaliseDouble_getElem?_some (M : Int) (pts : List (Int × Int)) (j : Nat)
    (q : ℚ × ℚ) (h : (normaliseDouble M (toDoubles pts))[j]? = some q) :
    ∃ p, pts[j]? = some p ∧
      q = ((p.1 : ℚ), toDouble (toDouble ((p.2 : ℚ) * 100) / (M : ℚ))) := by
  rw [normaliseDouble_getElem?] at h
  cases hp : pts[j]? with
  | none => rw [hp] at h; cases h
  | some p =>
    rw [hp] at h
    simp only [Option.map_some', Option.some.injEq] at h
    exact ⟨p, rfl, h.symm⟩

theorem lineariseMotorDouble_at_last (pts : List (Int × Int)) (last : Int × Int)
    (hlast : pts.getLast? = some last) :
    at? (toDoubles pts) (((toDoubles pts).length : Int) - 1) =
      some ((last.1 : ℚ), (last.2 : ℚ)) := by
  have hne : pts ≠ [] := by
    rintro rfl
    simp at hlast
  have hlen : 0 < pts.length := List.length_pos.mpr hne
  have hidx : ((toDoubles pts).length : Int) - 1 = ((pts.length - 1 : Nat) : Int) := by
    simp [toDoubles]
    omega
  rw [hidx, at?_natCast]
  rw [List.getLast?_eq_getElem?] at hlast
  simp [toDoubles, List.getElem?_map, hlast]

theorem lineariseMotorDouble_eq (m : List Int) (pts : List (Int × Int)) (last : Int × Int)
    (hlast : pts.getLast? = some last) (hM : last.2 ≠ 0) :
    lineariseMotorDouble m pts =
      match forLoopDouble (normaliseDouble last.2 (toDoubles pts)) 100 0 m with
      | .error e => .error e
      | .ok t => .ok (t ++ [100]) := by
  unfold lineariseMotorDouble
  simp only [lineariseMotorDouble_at_last pts last hlast, toInt_intCast, hM, if_false]
  rfl

theorem lineariseMotorDouble_zero (m : List Int) (pts : List (Int × Int)) (last : Int × Int)
    (hlast : pts.getLast? = some last) (hM : last.2 = 0) :
    lineariseMotorDouble m pts = .error .NonFinite := by
  unfold lineariseMotorDouble
  simp only [lineariseMotorDouble_at_last pts last hlast, toInt_intCast, hM, if_true]

/-- One iteration in `double` arithmetic on a list of 32-bit points with
non-decreasing raw input that starts at or below measured output 0 and ends
above it. -/
theorem iterationDouble (pts : List (Int × Int)) (first last : Int × Int)
    (hraw : pts.Pairwise fun a b => a.1 ≤ b.1)
    (hfirst : pts.head? = some first) (hlast : pts.getLast? = some last)
    (h0 : first.2 ≤ 0) (h1 : 0 < last.2) (hM : last.2 ≤ 2147483647)
    (i : Nat) (hi : i < 100) :
    ∃ (j : Nat) (lo hi : Int × Int), pts[j]? = some lo ∧ pts[j + 1]? = some hi ∧
      toDouble (toDouble ((lo.2 : ℚ) * 100) / (last.2 : ℚ)) ≤ (i : ℚ) ∧
      (i : ℚ) < toDouble (toDouble ((hi.2 : ℚ) * 100) / (last.2 : ℚ)) ∧
      whileLoop (i : Int) (normaliseDouble last.2 (toDoubles pts)) 0 = some ((j : Int) + 1) ∧
      loopBodyDouble (normaliseDouble last.2 (toDoubles pts)) (i : Int) =
        .ok (toInt (toDouble ((lo.1 : ℚ) + toDouble
          (toDouble (toDouble ((hi.1 : ℚ) - (lo.1 : ℚ)) /
              toDouble (toDouble (toDouble ((hi.2 : ℚ) * 100) / (last.2 : ℚ)) -
                toDouble (toDouble ((lo.2 : ℚ) * 100) / (last.2 : ℚ)))) *
            toDouble ((i : ℚ) - toDouble (toDouble ((lo.2 : ℚ) * 100) / (last.2 : ℚ))))))) := by
  have hMpos : (0 : ℚ) < (last.2 : ℚ) := by exact_mod_cast h1
  have hfirst' : pts[0]? = some first := by
    rw [← List.head?_eq_getElem?]; exact hfirst
  have hA : ∃ p0, (normaliseDouble last.2 (toDoubles pts))[0]? = some p0 ∧
      p0.2 ≤ ((i : Int) : ℚ) := by
    refine ⟨((first.1 : ℚ), toDouble (toDouble ((first.2 : ℚ) * 100) / (last.2 : ℚ))), ?_, ?_⟩
    · rw [normaliseDouble_getElem?, hfirst']; rfl
    · have hf : (first.2 : ℚ) ≤ 0 := by exact_mod_cast h0
      have h2 : toDouble ((first.2 : ℚ) * 100) ≤ 0 := toDouble_nonpos (by linarith)
      have h3 : toDouble (toDouble ((first.2 : ℚ) * 100) / (last.2 : ℚ)) ≤ 0 :=
        toDouble_nonpos (div_nonpos_of_nonpos_of_nonneg h2 (le_of_lt hMpos))
      have hi0 : (0 : ℚ) ≤ ((i : Int) : ℚ) := by positivity
      exact le_trans h3 hi0
  have hB : ∃ p ∈ normaliseDouble last.2 (toDoubles pts), ((i : Int) : ℚ) < p.2 := by
    refine ⟨((last.1 : ℚ), toDouble (toDouble ((last.2 : ℚ) * 100) / (last.2 : ℚ))), ?_, ?_⟩
    · apply List.getElem?_mem (n := pts.length - 1)
      rw [normaliseDouble_getElem?, ← List.getLast?_eq_getElem?, hlast]; rfl
    · have hprod : toDouble ((last.2 : ℚ) * 100) = (last.2 : ℚ) * 100 := by
        have := toDouble_intCast (last.2 * 100) (by omega) (by omega)
        push_cast at this
        exact this
      have hquot : (last.2 : ℚ) * 100 / (last.2 : ℚ) = ((100 : Int) : ℚ) := by
        field_simp
      have h100 : toDouble (((100 : Int) : ℚ)) = ((100 : Int) : ℚ) :=
        toDouble_intCast 100 (by decide) (by decide)
      simp only [hprod, hquot, h100]
      have : (i : ℚ) < 100 := by exact_mod_cast hi
      simpa using this
  obtain ⟨j, lo, hi', hlo, hhi, hle, hlt, hw, hbody⟩ :=
    loopBodyDouble_bracket (normaliseDouble last.2 (toDoubles pts)) (i : Int) hA hB
  obtain ⟨plo, hplo, rfl⟩ := normaliseDouble_getElem?_some _ _ _ _ hlo
  obtain ⟨phi, hphi, rfl⟩ := normaliseDouble_getElem?_some _ _ _ _ hhi
  have hrawle : plo.1 ≤ phi.1 := pairwise_getElem? hraw (Nat.lt_succ_self j) hplo hphi
  have hax : ¬ (toDouble ((phi.1 : ℚ) - (plo.1 : ℚ)) < 0) := by
    have : (0 : ℚ) ≤ (phi.1 : ℚ) - (plo.1 : ℚ) := by
      have : (plo.1 : ℚ) ≤ (phi.1 : ℚ) := by exact_mod_cast hrawle
      linarith
    exact not_lt.mpr (toDouble_nonneg this)
  refine ⟨j, plo, phi, hplo, hphi, ?_, ?_, hw, ?_⟩
  · simpa using hle
  · simpa using hlt
  · rw [hbody]
    simp only [hax, if_false, Int.cast_natCast]

/-- In `double` arithmetic, with 32-bit points, non-decreasing raw input, a first
measured output at or below zero and a positive last one, the table is built,
and its entries are the values of the hundred iterations followed by
`maxControlValue`. -/
theorem lineariseMotorDouble_ok (m : List Int) (pts : List (Int × Int)) (first last : Int × Int)
    (hraw : pts.Pairwise fun a b => a.1 ≤ b.1)
    (hfirst : pts.head? = some first) (hlast : pts.getLast? = some last)
    (h0 : first.2 ≤ 0) (h1 : 0 < last.2) (hM : last.2 ≤ 2147483647) :
    lineariseMotorDouble m pts =
      .ok (m ++ ((List.range 100).map fun (j : Nat) =>
        entryOfDouble (normaliseDouble last.2 (toDoubles pts)) (j : Int)) ++ [100]) := by
  rw [lineariseMotorDouble_eq m pts last hlast (ne_of_gt h1)]
  have hall : ∀ j : Nat, j < 100 →
      ∃ v, loopBodyDouble (normaliseDouble last.2 (toDoubles pts)) (0 + (j : Int)) = .ok v := by
    intro j hj
    obtain ⟨_, _, _, _, _, _, _, _, hbody⟩ :=
      iterationDouble pts first last hraw hfirst hlast h0 h1 hM j hj
    rw [zero_add]
    exact ⟨_, hbody⟩
  rw [forLoopDouble_ok _ 100 0 m hall]
  simp only [zero_add, List.append_assoc]

theorem getLast?_mem {α : Type} {l : List α} {a : α} (h : l.getLast? = some a) : a ∈ l := by
  rw [List.getLast?_eq_getElem?] at h
  exact List.getElem?_mem h

/-! ## Exact and `double` arithmetic take the same path -/

/-- The search stops at the same index on the normalized outputs the code stores
as on the exact quotients, for 32-bit measured outputs and a positive 32-bit
`maxValue`. -/
theorem whileLoop_double (M : Int) (i : Nat) (hi : i < 100) (hM0 : 0 < M) (hM : M ≤ 2147483647) :
    ∀ (pts : List (Int × Int)) (k : Int),
      (∀ p ∈ pts, -2147483648 ≤ p.2 ∧ p.2 ≤ 2147483647) →
      whileLoop (i : Int) (normaliseDouble M (toDoubles pts)) k =
        whileLoop (i : Int) (normalise M (toDoubles pts)) k := by
  intro pts
  induction pts with
  | nil => intro k _; rfl
  | cons p rest ih =>
    intro k h
    obtain ⟨h1, h2⟩ := h p (List.mem_cons_self p rest)
    have hrest := ih (k + 1) fun q hq => h q (List.mem_cons_of_mem p hq)
    have hiff := stored_le_iff p.2 M i hi h1 h2 hM0 hM
    simp only [normaliseDouble, normalise, toDoubles, List.map_cons, whileLoop, ge_iff_le,
      Int.cast_natCast, Int.cast_ofNat] at hrest ⊢
    by_cases hc : (p.2 : ℚ) * 100 / (M : ℚ) ≤ (i : ℚ)
    · rw [if_pos hc, if_pos (hiff.mpr hc)]
      exact hrest
    · rw [if_neg hc, if_neg (fun h' => hc (hiff.mp h'))]

theorem toDouble_neg_iff (x : ℚ) : toDouble x < 0 ↔ x < 0 := by
  constructor
  · intro h
    by_contra hx
    have := toDouble_nonneg (not_lt.mp hx)
    linarith
  · exact toDouble_neg

/-- One iteration ends the same way in exact and in `double` arithmetic: both
append a value, or both throw `MalformedConfigException`. -/
theorem loopBody_outcome_double (pts : List (Int × Int)) (first last : Int × Int)
    (hfirst : pts.head? = some first) (hlast : pts.getLast? = some last)
    (h0 : first.2 ≤ 0) (h1 : 0 < last.2)
    (hrange : ∀ p ∈ pts, -2147483648 ≤ p.2 ∧ p.2 ≤ 2147483647)
    (i : Nat) (hi : i < 100) :
    (∃ v w, loopBodyDouble (normaliseDouble last.2 (toDoubles pts)) (i : Int) = .ok v ∧
        loopBody (normalise last.2 (toDoubles pts)) (i : Int) = .ok w) ∨
      (loopBodyDouble (normaliseDouble last.2 (toDoubles pts)) (i : Int) =
          .error .MalformedConfigException ∧
        loopBody (normalise last.2 (toDoubles pts)) (i : Int) =
          .error .MalformedConfigException) := by
  have hM : last.2 ≤ 2147483647 := (hrange last (getLast?_mem hlast)).2
  have hMpos : (0 : ℚ) < (last.2 : ℚ) := by exact_mod_cast h1
  have hfirst' : pts[0]? = some first := by
    rw [← List.head?_eq_getElem?]; exact hfirst
  obtain ⟨j, lo, hi', hlo, hhi, _, _, _, hw, hbody⟩ :=
    iteration pts first last hfirst hlast h0 h1 i hi
  -- the same pair in `double` arithmetic
  have hA : ∃ p0, (normaliseDouble last.2 (toDoubles pts))[0]? = some p0 ∧
      p0.2 ≤ ((i : Int) : ℚ) := by
    refine ⟨((first.1 : ℚ), toDouble (toDouble ((first.2 : ℚ) * 100) / (last.2 : ℚ))), ?_, ?_⟩
    · rw [normaliseDouble_getElem?, hfirst']; rfl
    · have hf : (first.2 : ℚ) ≤ 0 := by exact_mod_cast h0
      have h2 : toDouble ((first.2 : ℚ) * 100) ≤ 0 := toDouble_nonpos (by linarith)
      have h3 : toDouble (toDouble ((first.2 : ℚ) * 100) / (last.2 : ℚ)) ≤ 0 :=
        toDouble_nonpos (div_nonpos_of_nonpos_of_nonneg h2 (le_of_lt hMpos))
      have hi0 : (0 : ℚ) ≤ ((i : Int) : ℚ) := by positivity
      exact le_trans h3 hi0
  have hB : ∃ p ∈ normaliseDouble last.2 (toDoubles pts), ((i : Int) : ℚ) < p.2 := by
    refine ⟨((last.1 : ℚ), toDouble (toDouble ((last.2 : ℚ) * 100) / (last.2 : ℚ))), ?_, ?_⟩
    · apply List.getElem?_mem (n := pts.length - 1)
      rw [normaliseDouble_getElem?, ← List.getLast?_eq_getElem?, hlast]; rfl
    · have hprod : toDouble ((last.2 : ℚ) * 100) = (last.2 : ℚ) * 100 := by
        have := toDouble_intCast (last.2 * 100) (by omega) (by omega)
        push_cast at this
        exact this
      have hquot : (last.2 : ℚ) * 100 / (last.2 : ℚ) = ((100 : Int) : ℚ) := by
        field_simp
      have h100 : toDouble (((100 : Int) : ℚ)) = ((100 : Int) : ℚ) :=
        toDouble_intCast 100 (by decide) (by decide)
      simp only [hprod, hquot, h100]
      have : (i : ℚ) < 100 := by exact_mod_cast hi
      simpa using this
  obtain ⟨j', lo', hi'', hlo', hhi', _, _, hw', hbody'⟩ :=
    loopBodyDouble_bracket (normaliseDouble last.2 (toDoubles pts)) (i : Int) hA hB
  have hsame : j' = j := by
    rw [whileLoop_double last.2 i hi h1 hM pts 0 hrange, hw] at hw'
    simp only [Option.some.injEq] at hw'
    omega
  subst hsame
  obtain ⟨plo, hplo, rfl⟩ := normaliseDouble_getElem?_some _ _ _ _ hlo'
  obtain ⟨phi, hphi, rfl⟩ := normaliseDouble_getElem?_some _ _ _ _ hhi'
  rw [hlo] at hplo
  rw [hhi] at hphi
  cases hplo
  cases hphi
  rw [hbody, hbody']
  by_cases hraw : hi'.1 < lo.1
  · right
    have : toDouble ((hi'.1 : ℚ) - (lo.1 : ℚ)) < 0 := by
      apply toDouble_neg
      have : (hi'.1 : ℚ) < (lo.1 : ℚ) := by exact_mod_cast hraw
      linarith
    rw [if_pos hraw, if_pos this]
    exact ⟨rfl, rfl⟩
  · left
    have : ¬ toDouble ((hi'.1 : ℚ) - (lo.1 : ℚ)) < 0 := by
      rw [toDouble_neg_iff]
      have : (lo.1 : ℚ) ≤ (hi'.1 : ℚ) := by exact_mod_cast not_lt.mp hraw
      linarith
    rw [if_neg hraw, if_neg this]
    exact ⟨_, _, rfl, rfl⟩

theorem forLoop_outcome_double (paD pa : List (ℚ × ℚ)) :
    ∀ (n : Nat) (i : Int) (m m' : List Int), m.length = m'.length →
      (∀ j : Nat, j < n →
        (∃ v w, loopBodyDouble paD (i + (j : Int)) = .ok v ∧
          loopBody pa (i + (j : Int)) = .ok w) ∨
        (loopBodyDouble paD (i + (j : Int)) = .error .MalformedConfigException ∧
          loopBody pa (i + (j : Int)) = .error .MalformedConfigException)) →
      (∃ t t', forLoopDouble paD n i m = .ok t ∧ forLoop pa n i m' = .ok t' ∧
          t.length = t'.length) ∨
        (forLoopDouble paD n i m = .error .MalformedConfigException ∧
          forLoop pa n i m' = .error .MalformedConfigException) := by
  intro n
  induction n with
  | zero =>
    intro i m m' hlen _
    exact Or.inl ⟨m, m', rfl, rfl, hlen⟩
  | succ n ih =>
    intro i m m' hlen h
    unfold forLoopDouble forLoop
    rcases h 0 (Nat.succ_pos n) with ⟨v, w, hv, hw⟩ | ⟨hv, hw⟩
    · simp only [Nat.cast_zero, add_zero] at hv hw
      rw [hv, hw]
      simp only
      apply ih (i + 1) (m ++ [v]) (m' ++ [w]) (by simp [hlen])
      intro j hj
      have := h (j + 1) (Nat.succ_lt_succ hj)
      have e1 : i + ((j + 1 : Nat) : Int) = i + 1 + (j : Int) := by push_cast; ring
      rwa [e1] at this
    · simp only [Nat.cast_zero, add_zero] at hv hw
      rw [hv, hw]
      exact Or.inr ⟨rfl, rfl⟩

/-- On 32-bit points whose measured outputs start at or below 0 and end above 0,
`lineariseMotor` ends the same way in exact and in `double` arithmetic: both
build a table, of the same length, or both throw `MalformedConfigException`. -/
theorem lineariseMotor_outcome_double (m : List Int) (pts : List (Int × Int))
    (first last : Int × Int)
    (hfirst : pts.head? = some first) (hlast : pts.getLast? = some last)
    (h0 : first.2 ≤ 0) (h1 : 0 < last.2)
    (hrange : ∀ p ∈ pts, -2147483648 ≤ p.2 ∧ p.2 ≤ 2147483647) :
    (∃ t t', lineariseMotorDouble m pts = .ok t ∧ lineariseMotor m pts = .ok t' ∧
        t.length = t'.length) ∨
      (lineariseMotorDouble m pts = .error .MalformedConfigException ∧
        lineariseMotor m pts = .error .MalformedConfigException) := by
  rw [lineariseMotorDouble_eq m pts last hlast (ne_of_gt h1),
    lineariseMotor_eq m pts last hlast (ne_of_gt h1)]
  have hall := forLoop_outcome_double (normaliseDouble last.2 (toDoubles pts))
    (normalise last.2 (toDoubles pts)) 100 0 m m rfl (by
      intro j hj
      rw [zero_add]
      exact loopBody_outcome_double pts first last hfirst hlast h0 h1 hrange j hj)
  rcases hall with ⟨t, t', ht, ht', hlen⟩ | ⟨he, he'⟩
  · left
    rw [ht, ht']
    exact ⟨_, _, rfl, rfl, by simp [hlen]⟩
  · right
    rw [he, he']
    exact ⟨rfl, rfl⟩

/-! ## Claims on the calibration table -/

/-- C1, counterexample: the two points `(0;10)(100;100)` are strictly increasing
in raw input and in measured output, yet `lineariseMotor` does not complete: for
magnitude 0 the search stops at `k = 0`, `k--` gives `-1`, and the vector is
read outside its range. -/
theorem lineariseMotor_first_measured_positive :
    (2 ≤ ([(0, 10), (100, 100)] : List (Int × Int)).length ∧
      ([(0, 10), (100, 100)] : List (Int × Int)).Pairwise fun a b => a.1 < b.1 ∧ a.2 < b.2) ∧
    lineariseMotor [] [(0, 10), (100, 100)] = .error .IndexOutOfRange :=
  ⟨⟨by decide, by decide⟩, by decide!⟩

/-- C1, amended: for every list of at least two points that is strictly
increasing in raw input and in measured output, whose first measured output is
at most 0 and whose last measured output is positive, `lineariseMotor` called on
an empty `mPowerMap` returns normally and leaves a table of exactly 101
entries. -/
theorem lineariseMotor_builds_101 (pts : List (Int × Int)) (first last : Int × Int)
    (hlen : 2 ≤ pts.length)
    (hinc : pts.Pairwise fun a b => a.1 < b.1 ∧ a.2 < b.2)
    (hfirst : pts.head? = some first) (hlast : pts.getLast? = some last)
    (h0 : first.2 ≤ 0) (h1 : 0 < last.2) :
    ∃ t, lineariseMotor [] pts = .ok t ∧ t.length = 101 := by
  have _ := hlen
  refine ⟨_, lineariseMotor_ok [] pts first last (pairwise_raw_le hinc) hfirst hlast h0 h1, ?_⟩
  simp

/-- C1, witness of the amended claim on the points `(0;0)(50;50)(100;100)`. -/
theorem lineariseMotor_builds_101_witness :
    (2 ≤ ([(0, 0), (50, 50), (100, 100)] : List (Int × Int)).length ∧
      ([(0, 0), (50, 50), (100, 100)] : List (Int × Int)).Pairwise
        fun a b => a.1 < b.1 ∧ a.2 < b.2) ∧
    ∃ t, lineariseMotor [] [(0, 0), (50, 50), (100, 100)] = .ok t ∧ t.length = 101 :=
  ⟨⟨by decide, by decide⟩,
    lineariseMotor_builds_101 [(0, 0), (50, 50), (100, 100)] (0, 0) (100, 100)
      (by decide) (by decide) rfl rfl (by decide) (by decide)⟩

/-- C2, counterexample: from the points `(0;0)(50;100)` a table is built whose
entry 100 is 100, while the raw input of the last point is 50. -/
theorem lineariseMotor_last_entry_not_last_raw :
    lineariseMotor [] [(0, 0), (50, 100)] =
        .ok ((List.range 100).map (fun (i : Nat) => (i : Int) / 2) ++ [100]) ∧
      ((List.range 100).map (fun (i : Nat) => (i : Int) / 2) ++ [100])[100]? = some 100 ∧
      (([(0, 0), (50, 100)] : List (Int × Int)).getLast?.map fun p => p.1) = some 50 :=
  ⟨by decide!, by decide, by decide⟩

/-- C2, amended: whenever `lineariseMotor`, called on an empty `mPowerMap`,
builds a table, entry 100 of the table is the constant `maxControlValue` (100),
whatever the raw input of the last point is. -/
theorem lineariseMotor_entry_100 (pts : List (Int × Int)) (t : List Int)
    (h : lineariseMotor [] pts = .ok t) : t[100]? = some maxControlValue := by
  obtain ⟨last, t', _, _, hf, rfl⟩ := lineariseMotor_ok_inv [] t pts h
  have hlen : t'.length = 100 := by
    have := forLoop_length _ 100 0 [] t' hf
    simpa using this
  rw [List.getElem?_append_right (by omega)]
  simp [hlen]

/-- C2, witness of the amended claim on the points `(0;0)(1000;100)`. -/
theorem lineariseMotor_entry_100_witness :
    lineariseMotor [] [(0, 0), (1000, 100)] =
        .ok ((List.range 100).map (fun (i : Nat) => 10 * (i : Int)) ++ [100]) ∧
      ((List.range 100).map (fun (i : Nat) => 10 * (i : Int)) ++ [100])[100]? =
        some maxControlValue :=
  ⟨by decide!, lineariseMotor_entry_100 [(0, 0), (1000, 100)] _ (by decide!)⟩

/-- C4, failing input: on the points `(0;0)(50;50)(70;40)(100;100)` the measured
output falls from 50 to 40, and `lineariseMotor` throws nothing: it returns the
table `0..49` for magnitudes 0..49, then `75 + (i - 50) / 2` for magnitudes
50..99, then 100. -/
theorem lineariseMotor_accepts_decreasing_measured :
    lineariseMotor [] [(0, 0), (50, 50), (70, 40), (100, 100)] =
      .ok ((List.range 50).map (fun (i : Nat) => (i : Int)) ++
        (List.range 50).map (fun (i : Nat) => 75 + (i : Int) / 2) ++ [100]) := by
  decide!

/-- C5, counterexample: the points `(0;0)(0;50)(100;100)` repeat the raw input 0
(a zero raw-input delta on the first pair), and `lineariseMotor` throws nothing:
it returns the table that is 0 for magnitudes 0..49, `2 * (i - 50)` for
magnitudes 50..99, then 100. -/
theorem lineariseMotor_accepts_zero_delta :
    lineariseMotor [] [(0, 0), (0, 50), (100, 100)] =
      .ok ((List.range 50).map (fun (_ : Nat) => (0 : Int)) ++
        (List.range 50).map (fun (i : Nat) => 2 * (i : Int)) ++ [100]) := by
  decide!

/-- C5, amended: for every list whose measured outputs are non-decreasing, start
at or below 0 and end above 0, if some consecutive pair `(k, k+1)` has a strictly
negative raw-input delta and its normalized outputs enclose an integer magnitude
`i` in 0..99 (`measured k * 100 / measured last ≤ i < measured (k+1) * 100 /
measured last`), then `lineariseMotor` fails with `MalformedConfigException`. -/
theorem lineariseMotor_negative_raw_delta (pts : List (Int × Int)) (first last lo hi : Int × Int)
    (k i : Nat)
    (hmeas : pts.Pairwise fun a b => a.2 ≤ b.2)
    (hfirst : pts.head? = some first) (hlast : pts.getLast? = some last)
    (h0 : first.2 ≤ 0) (h1 : 0 < last.2)
    (hlo : pts[k]? = some lo) (hhi : pts[k + 1]? = some hi)
    (hraw : hi.1 < lo.1)
    (hi100 : i < 100)
    (hbelow : (lo.2 : ℚ) * 100 / (last.2 : ℚ) ≤ (i : ℚ))
    (habove : (i : ℚ) < (hi.2 : ℚ) * 100 / (last.2 : ℚ)) :
    lineariseMotor [] pts = .error .MalformedConfigException := by
  apply lineariseMotor_malformed_of [] pts first last hfirst hlast h0 h1
  refine ⟨i, hi100, ?_⟩
  obtain ⟨j, lo', hi', hlo', hhi', _, hlt', hall', _, hbody⟩ :=
    iteration pts first last hfirst hlast h0 h1 i hi100
  have hMpos : (0 : ℚ) < (last.2 : ℚ) := by exact_mod_cast h1
  have hjk : j = k := by
    rcases Nat.lt_trichotomy j k with h | h | h
    · -- the pair found by the search would end at or before point `k`
      have hle : hi'.2 ≤ lo.2 := by
        rcases Nat.lt_or_ge (j + 1) k with h' | h'
        · exact pairwise_getElem? hmeas h' hhi' hlo
        · have : j + 1 = k := by omega
          subst this
          rw [hhi'] at hlo
          cases hlo
          exact le_refl _
      have hq : (hi'.2 : ℚ) * 100 / (last.2 : ℚ) ≤ (lo.2 : ℚ) * 100 / (last.2 : ℚ) := by
        have : (hi'.2 : ℚ) ≤ (lo.2 : ℚ) := by exact_mod_cast hle
        exact div_le_div_of_nonneg_right (by linarith) (le_of_lt hMpos)
      linarith
    · exact h
    · have := hall' (k + 1) hi (by omega) hhi
      linarith
  subst hjk
  rw [hlo] at hlo'
  rw [hhi] at hhi'
  cases hlo'
  cases hhi'
  rw [hbody, if_pos hraw]

/-- C5, witness of the amended claim on the points
`(0;0)(60;50)(50;60)(100;100)`, pair `(1, 2)`, magnitude 50. -/
theorem lineariseMotor_negative_raw_delta_witness :
    lineariseMotor [] [(0, 0), (60, 50), (50, 60), (100, 100)] =
      .error .MalformedConfigException :=
  lineariseMotor_negative_raw_delta [(0, 0), (60, 50), (50, 60), (100, 100)]
    (0, 0) (100, 100) (60, 50) (50, 60) 1 50
    (by decide) rfl rfl (by decide) (by decide) rfl rfl (by decide) (by decide)
    (by norm_num) (by norm_num)

/-! ## Claims on the driver operations -/

/-- C6: for every power `p` and every driver state, `setPower(p, false)` throws
`InternalErrorException` and leaves the driver as it was: nothing is sent to the
transport, and the stored power and period are unchanged. -/
theorem setPower_unconstrained (s : PowerMotor) (p : Int) :
    (s.setPower p false).thrown = some .InternalErrorException ∧
      (s.setPower p false).state = s ∧
      (s.setPower p false).state.mCommunicator = s.mCommunicator ∧
      (s.setPower p false).state.power = s.power ∧
      (s.setPower p false).state.period = s.period := by
  simp [PowerMotor.setPower]

/-- C7: for every driver with a full table (as every constructed driver has, see
`ctor_table_length`), inverted or not, and every `p` with
`minControl() ≤ p ≤ maxControl()`, `setPower(p, true)` returns normally and
`power()` then returns exactly `p`. -/
theorem power_after_setPower (s : PowerMotor) (p : Int) (hlen : s.mPowerMap.length = 101)
    (hmin : s.minControl ≤ p) (hmax : p ≤ s.maxControl) :
    (s.setPower p true).thrown = none ∧ (s.setPower p true).state.power = p := by
  have h1 : -100 ≤ p := hmin
  have h2 : p ≤ 100 := hmax
  rw [setPower_true s p hlen h1 h2]
  exact ⟨rfl, rfl⟩

/-- C7, witness: an inverted driver whose table maps
magnitude `i` to `i + 1`, and `p = -40`; the calibrated value sent is 41, the
value read back is -40. -/
theorem power_after_setPower_witness :
    ((⟨true, 20, 4096, 0, (List.range 101).map (fun (i : Nat) => (i : Int) + 1), []⟩ :
        PowerMotor).setPower (-40) true).thrown = none ∧
      ((⟨true, 20, 4096, 0, (List.range 101).map (fun (i : Nat) => (i : Int) + 1), []⟩ :
        PowerMotor).setPower (-40) true).state.power = -40 :=
  power_after_setPower ⟨true, 20, 4096, 0, (List.range 101).map (fun (i : Nat) => (i : Int) + 1), []⟩
    (-40) (by decide) (by decide) (by decide)

/-- C8: for every `p` in `[-100, 100]` and every driver with a full table whose
protocol command number `c` lies in `0..65535`, `setPower(p, true)` adds exactly
one command to the transport log; the command has exactly 3 bytes, and its bytes
0 and 1 are the little-endian encoding of `c` (`byte0 + 256 * byte1 = c`). -/
theorem setPower_command (s : PowerMotor) (p : Int) (hlen : s.mPowerMap.length = 101)
    (hmin : -100 ≤ p) (hmax : p ≤ 100)
    (hc0 : 0 ≤ s.mMspCommandNumber) (hc1 : s.mMspCommandNumber ≤ 65535) :
    ∃ b0 b1 b2 : Nat,
      (s.setPower p true).state.mCommunicator = s.mCommunicator ++ [[b0, b1, b2]] ∧
      b0 < 256 ∧ b1 < 256 ∧ b2 < 256 ∧
      (b0 : Int) + 256 * (b1 : Int) = s.mMspCommandNumber := by
  rw [setPower_true s p hlen hmin hmax]
  exact ⟨_, _, _, rfl, toChar_lt _, toChar_lt _, toChar_lt _,
    littleEndian16 s.mMspCommandNumber hc0 hc1⟩

/-- C8, witness: command number `0x1234`, identity table,
`p = 50`. -/
theorem setPower_command_witness :
    ∃ b0 b1 b2 : Nat,
      ((⟨false, 0x1234, 4096, 0, (List.range 101).map (fun (i : Nat) => (i : Int)),
          [[16, 0, 0, 16]]⟩ : PowerMotor).setPower 50 true).state.mCommunicator =
        [[16, 0, 0, 16]] ++ [[b0, b1, b2]] ∧
      b0 < 256 ∧ b1 < 256 ∧ b2 < 256 ∧ (b0 : Int) + 256 * (b1 : Int) = 0x1234 :=
  setPower_command
    ⟨false, 0x1234, 4096, 0, (List.range 101).map (fun (i : Nat) => (i : Int)), [[16, 0, 0, 16]]⟩
    50 (by decide) (by decide) (by decide) (by decide) (by decide)

/-- C9, counterexample: the driver constructed from the points `(0;0)(1000;100)`
(command number 20, period 4096, not inverted) has table entry 50 equal to 500;
`setPower(50, true)` sends `[20, 0, 244]`, and byte 244 read as a signed 8-bit
integer is -12, not the calibrated power 500. -/
theorem setPower_byte2_truncates :
    ((PowerMotor.ctor "true" 20 4096 [(0, 0), (1000, 100)] []).toOption.map fun s =>
        ((s.setPower 50 true).state.mCommunicator.getLast?,
          calibratedPower s.mPowerMap s.mInvert 50)) =
      some (some [20, 0, 244], 500) ∧
    asSigned 244 = -12 :=
  ⟨by decide!, by decide⟩

/-- C9, amended: for every driver with a full table and every `p` in
`[-100, 100]`, byte 2 of the command sent by `setPower(p, true)`, read as a
signed 8-bit integer, is congruent modulo 256 to the calibrated power (`table[p]`
for `p > 0`, `-table[-p]` for `p ≤ 0`, negated when the inversion flag is set),
and equals it whenever the calibrated power lies in `-128..127`. -/
theorem setPower_byte2 (s : PowerMotor) (p : Int) (hlen : s.mPowerMap.length = 101)
    (hmin : -100 ≤ p) (hmax : p ≤ 100) :
    ∃ b0 b1 b2 : Nat,
      (s.setPower p true).state.mCommunicator = s.mCommunicator ++ [[b0, b1, b2]] ∧
      (asSigned b2 - calibratedPower s.mPowerMap s.mInvert p) % 256 = 0 ∧
      (-128 ≤ calibratedPower s.mPowerMap s.mInvert p →
        calibratedPower s.mPowerMap s.mInvert p ≤ 127 →
        asSigned b2 = calibratedPower s.mPowerMap s.mInvert p) := by
  rw [setPower_true s p hlen hmin hmax]
  exact ⟨_, _, _, rfl, (asSigned_toChar_and0xFF _).1, (asSigned_toChar_and0xFF _).2⟩

/-- C9, witness of the amended claim: an inverted driver with the identity table and
`p = 50`. -/
theorem setPower_byte2_witness :
    ∃ b0 b1 b2 : Nat,
      ((⟨true, 20, 4096, 0, (List.range 101).map (fun (i : Nat) => (i : Int)), []⟩ :
          PowerMotor).setPower 50 true).state.mCommunicator = [] ++ [[b0, b1, b2]] ∧
      (asSigned b2 - calibratedPower ((List.range 101).map (fun (i : Nat) => (i : Int)))
        true 50) % 256 = 0 ∧
      (-128 ≤ calibratedPower ((List.range 101).map (fun (i : Nat) => (i : Int))) true 50 →
        calibratedPower ((List.range 101).map (fun (i : Nat) => (i : Int))) true 50 ≤ 127 →
        asSigned b2 = calibratedPower ((List.range 101).map (fun (i : Nat) => (i : Int)))
          true 50) :=
  setPower_byte2
    ⟨true, 20, 4096, 0, (List.range 101).map (fun (i : Nat) => (i : Int)), []⟩
    50 (by decide) (by decide) (by decide)

/-- C10: for every period in `0..65535` and every protocol command number `c`,
`setPeriod(period)` stores the period (`period()` then returns it) and adds
exactly one command to the transport log, of 4 bytes: byte 0 is the low byte of
`c - 4`, byte 1 is 0, and bytes 2 and 3 are the little-endian encoding of the
period (`byte2 + 256 * byte3 = period`). -/
theorem setPeriod_command (s : PowerMotor) (period : Int)
    (h0 : 0 ≤ period) (h1 : period ≤ 65535) :
    (s.setPeriod period).period = period ∧
    ∃ b0 b2 b3 : Nat,
      (s.setPeriod period).mCommunicator = s.mCommunicator ++ [[b0, 0, b2, b3]] ∧
      (b0 : Int) = (s.mMspCommandNumber - 4) % 256 ∧
      b2 < 256 ∧ b3 < 256 ∧ (b2 : Int) + 256 * (b3 : Int) = period := by
  refine ⟨rfl, toChar (and0xFF (s.mMspCommandNumber - 4)), toChar (and0xFF period),
    toChar (shr8 period), rfl, ?_, toChar_lt _, toChar_lt _, ?_⟩
  · rw [toChar_and0xFF]
    omega
  · rw [toChar_and0xFF]
    unfold toChar shr8
    omega

/-- C10, witness: command number 20 and period `0x1000`; the
command sent is `[16, 0, 0, 16]`. -/
theorem setPeriod_command_witness :
    ((⟨false, 20, 0, 0, [], []⟩ : PowerMotor).setPeriod 0x1000).period = 0x1000 ∧
    ∃ b0 b2 b3 : Nat,
      ((⟨false, 20, 0, 0, [], []⟩ : PowerMotor).setPeriod 0x1000).mCommunicator =
        [] ++ [[b0, 0, b2, b3]] ∧
      (b0 : Int) = (20 - 4) % 256 ∧
      b2 < 256 ∧ b3 < 256 ∧ (b2 : Int) + 256 * (b3 : Int) = 0x1000 :=
  setPeriod_command ⟨false, 20, 0, 0, [], []⟩ 0x1000 (by decide) (by decide)

/-! ## Claims on the configured text -/

/-- C17: parsing undoes the formatting.  For every list of pairs of 32-bit
integers, the text made of the groups `(raw;measured)` in order is parsed by the
loop of `lineariseMotor` (split at `)`, drop the first character, split at `;`)
into exactly the same pairs in the same order, raw first and measured second. -/
theorem parseMeasures_formatMeasures (pts : List (Int × Int))
    (hrange : ∀ p ∈ pts, (-2147483648 ≤ p.1 ∧ p.1 ≤ 2147483647) ∧
      (-2147483648 ≤ p.2 ∧ p.2 ≤ 2147483647)) :
    parseMeasures (formatMeasures pts) = .ok pts := by
  unfold parseMeasures
  rw [split_formatMeasures, parseLoop_groups pts [] hrange]
  simp

/-- C17, witness: the text `(0;0)(10;-28)(100;160)` is the formatting of three
points, and is parsed into these three points. -/
theorem parseMeasures_formatMeasures_witness :
    formatMeasures [(0, 0), (10, -28), (100, 160)] = "(0;0)(10;-28)(100;160)".toList ∧
    parseMeasures (formatMeasures [(0, 0), (10, -28), (100, 160)]) =
      .ok [(0, 0), (10, -28), (100, 160)] :=
  ⟨by decide, parseMeasures_formatMeasures [(0, 0), (10, -28), (100, 160)] (by decide)⟩

/-! ## Further claims on the driver operations -/

/-- C11, failing input: the driver constructed with attribute `invert` equal to
the text `false` (command number 20, period 4096, points
`(0;0)(50;50)(100;100)`) has its inversion flag set; its table entry 50 is 50,
and `setPower(50, true)` sends `[20, 0, 206]`, where byte 206 read as a signed
8-bit integer is -50. -/
theorem ctor_invert_false_inverts :
    ((PowerMotor.ctor "false" 20 4096 [(0, 0), (50, 50), (100, 100)] []).toOption.map fun s =>
        (s.mInvert, s.mPowerMap[50]?, (s.setPower 50 true).state.mCommunicator.getLast?)) =
      some (true, some 50, some [20, 0, 206]) ∧
    asSigned 206 = -50 :=
  ⟨by decide!, by decide⟩

/-- C12: on every driver with a full table, `powerOff()` does what
`setPower(0, true)` does: the two calls leave the same state and throw nothing;
the stored power becomes 0, the period is unchanged, and exactly one command of
3 bytes is added to the transport log. -/
theorem powerOff_eq_setPower_zero (s : PowerMotor) (hlen : s.mPowerMap.length = 101) :
    s.powerOff = s.setPower 0 true ∧
      s.powerOff.thrown = none ∧
      s.powerOff.state.power = 0 ∧
      s.powerOff.state.period = s.period ∧
      ∃ b0 b1 b2 : Nat, s.powerOff.state.mCommunicator = s.mCommunicator ++ [[b0, b1, b2]] := by
  have h : s.powerOff = s.setPower 0 true := rfl
  rw [h, setPower_true s 0 hlen (by decide) (by decide)]
  exact ⟨rfl, rfl, rfl, rfl, _, _, _, rfl⟩

/-- C12, witness: a driver with the identity table, power 30 stored and one
command already sent. -/
theorem powerOff_eq_setPower_zero_witness :
    (⟨false, 20, 4096, 30, (List.range 101).map (fun (i : Nat) => (i : Int)),
        [[20, 0, 30]]⟩ : PowerMotor).powerOff =
      (⟨false, 20, 4096, 30, (List.range 101).map (fun (i : Nat) => (i : Int)),
        [[20, 0, 30]]⟩ : PowerMotor).setPower 0 true :=
  (powerOff_eq_setPower_zero
    ⟨false, 20, 4096, 30, (List.range 101).map (fun (i : Nat) => (i : Int)), [[20, 0, 30]]⟩
    (by decide)).1

/-- C16: `minControl()` returns -100 and `maxControl()` returns 100; for every
`p` between them and every driver whose table has 101 entries, the index of the
table read by `setPower(p, true)` (`-p` for `p ≤ 0`, `p` otherwise) lies in
`0..100`, the read is inside the table, and `setPower(p, true)` throws
nothing. -/
theorem setPower_index_in_range (s : PowerMotor) (p : Int) (hlen : s.mPowerMap.length = 101)
    (hmin : s.minControl ≤ p) (hmax : p ≤ s.maxControl) :
    s.minControl = -100 ∧ s.maxControl = 100 ∧
      0 ≤ (if p ≤ 0 then -p else p) ∧ (if p ≤ 0 then -p else p) ≤ 100 ∧
      (∃ v, at? s.mPowerMap (if p ≤ 0 then -p else p) = some v) ∧
      (s.setPower p true).thrown = none := by
  have h1 : -100 ≤ p := hmin
  have h2 : p ≤ 100 := hmax
  refine ⟨rfl, rfl, ?_, ?_, ?_, ?_⟩
  · split <;> omega
  · split <;> omega
  · by_cases hp : p ≤ 0
    · rw [if_pos hp]
      exact ⟨_, at?_getD s.mPowerMap (-p) (by omega) (by omega)⟩
    · rw [if_neg hp]
      exact ⟨_, at?_getD s.mPowerMap p (by omega) (by omega)⟩
  · rw [setPower_true s p hlen h1 h2]

/-- C16, witness: the lowest accepted power, -100, on a driver with the identity
table. -/
theorem setPower_index_in_range_witness :
    ((⟨false, 20, 4096, 0, (List.range 101).map (fun (i : Nat) => (i : Int)), []⟩ :
        PowerMotor).setPower (-100) true).thrown = none :=
  (setPower_index_in_range
    ⟨false, 20, 4096, 0, (List.range 101).map (fun (i : Nat) => (i : Int)), []⟩
    (-100) (by decide) (by decide) (by decide)).2.2.2.2.2

/-- C20: `setPower` is odd in its input.  For every driver whose table has 101
entries, whatever its inversion flag, and every `p` in `1..100`, there is a
calibrated value `x` such that `setPower(p, true)` sends the byte of `x` and
`setPower(-p, true)` the byte of `-x`, behind the same two command bytes; the two
power bytes sum to 0 modulo 256; and the driver with the inversion flag set
sends for `p` the command that the driver with the flag cleared sends for
`-p`. -/
theorem setPower_odd (s : PowerMotor) (p : Int) (hlen : s.mPowerMap.length = 101)
    (h1 : 1 ≤ p) (h100 : p ≤ 100) :
    ∃ (x : Int) (b0 b1 : Nat),
      (s.setPower p true).state.mCommunicator =
        s.mCommunicator ++ [[b0, b1, toChar (and0xFF x)]] ∧
      (s.setPower (-p) true).state.mCommunicator =
        s.mCommunicator ++ [[b0, b1, toChar (and0xFF (-x))]] ∧
      (toChar (and0xFF x) + toChar (and0xFF (-x))) % 256 = 0 ∧
      (({ s with mInvert := true } : PowerMotor).setPower p true).state.mCommunicator =
        (({ s with mInvert := false } : PowerMotor).setPower (-p) true).state.mCommunicator := by
  refine ⟨calibratedPower s.mPowerMap s.mInvert p, toChar (and0xFF s.mMspCommandNumber),
    toChar (and0xFF (shr8 s.mMspCommandNumber)), ?_, ?_, toChar_and0xFF_neg _, ?_⟩
  · rw [setPower_true s p hlen (by omega) h100]
  · rw [setPower_true s (-p) hlen (by omega) (by omega), calibratedPower_neg _ _ p h1]
  · rw [setPower_true ({ s with mInvert := true } : PowerMotor) p hlen (by omega) h100,
      setPower_true ({ s with mInvert := false } : PowerMotor) (-p) hlen (by omega) (by omega)]
    simp only [calibratedPower_invert s.mPowerMap p h1]

/-- C20, witness: an inverted driver whose table maps magnitude `i` to `2 * i`,
and `p = 70`: the calibrated values are -140 and 140, sent as bytes 116 and
140. -/
theorem setPower_odd_witness :
    ∃ (x : Int) (b0 b1 : Nat),
      ((⟨true, 20, 4096, 0, (List.range 101).map (fun (i : Nat) => 2 * (i : Int)), []⟩ :
          PowerMotor).setPower 70 true).state.mCommunicator =
        [] ++ [[b0, b1, toChar (and0xFF x)]] ∧
      ((⟨true, 20, 4096, 0, (List.range 101).map (fun (i : Nat) => 2 * (i : Int)), []⟩ :
          PowerMotor).setPower (-70) true).state.mCommunicator =
        [] ++ [[b0, b1, toChar (and0xFF (-x))]] ∧
      (toChar (and0xFF x) + toChar (and0xFF (-x))) % 256 = 0 :=
  let ⟨x, b0, b1, h1, h2, h3, _⟩ := setPower_odd
    ⟨true, 20, 4096, 0, (List.range 101).map (fun (i : Nat) => 2 * (i : Int)), []⟩
    70 (by decide) (by decide) (by decide)
  ⟨x, b0, b1, h1, h2, h3⟩

/-! ## Further claims on the calibration table -/

/-- C13: for every list that starts at `(0;0)`, ends at `(100;100)`, is strictly
increasing and has its raw input equal to its measured output at every point, the
table built is the identity on `0..100`; the driver constructed from it then
sends, for `setPower(50, true)`, the two bytes of the command number followed by
50 when its inversion flag is clear and by 206 (-50 as a signed byte) when it is
set. -/
theorem identity_table (pts : List (Int × Int))
    (hinc : pts.Pairwise fun a b => a.1 < b.1 ∧ a.2 < b.2)
    (hfirst : pts.head? = some (0, 0)) (hlast : pts.getLast? = some (100, 100))
    (hdiag : ∀ p ∈ pts, p.1 = p.2) :
    lineariseMotor [] pts = .ok ((List.range 101).map fun (i : Nat) => (i : Int)) ∧
    asSigned 206 = -50 ∧
    ∀ (invert : String) (c period : Int) (comm : List (List Nat)),
      ∃ s, PowerMotor.ctor invert c period pts comm = .ok s ∧
        s.mPowerMap = ((List.range 101).map fun (i : Nat) => (i : Int)) ∧
        (s.setPower 50 true).state.mCommunicator =
          s.mCommunicator ++
            [[toChar (and0xFF c), toChar (and0xFF (shr8 c)), if s.mInvert then 206 else 50]] := by
  have hraw := pairwise_raw_le hinc
  have hentry : ∀ i : Nat, i < 100 →
      entryOf (normalise ((100, 100) : Int × Int).2 (toDoubles pts)) (i : Int) = (i : Int) := by
    intro i hi
    obtain ⟨j, lo, hi', hlo, hhi, hle, hlt, _, _, hbody⟩ :=
      iteration pts (0, 0) (100, 100) hfirst hlast (by decide) (by decide) i hi
    have hrawle : lo.1 ≤ hi'.1 := pairwise_getElem? hraw (Nat.lt_succ_self j) hlo hhi
    rw [if_neg (not_lt.mpr hrawle)] at hbody
    have hl : lo.1 = lo.2 := hdiag lo (List.getElem?_mem hlo)
    have hh : hi'.1 = hi'.2 := hdiag hi' (List.getElem?_mem hhi)
    simp only [entryOf, hbody]
    simp only [Int.cast_ofNat] at hle hlt ⊢
    have hd : (hi'.2 : ℚ) * 100 / 100 - (lo.2 : ℚ) * 100 / 100 ≠ 0 := by
      intro h; linarith
    have hval : (lo.1 : ℚ) + ((hi'.1 : ℚ) - (lo.1 : ℚ)) /
          ((hi'.2 : ℚ) * 100 / 100 - (lo.2 : ℚ) * 100 / 100) * ((i : ℚ) - (lo.2 : ℚ) * 100 / 100) =
        ((i : Int) : ℚ) := by
      rw [hl, hh]
      have e1 : (hi'.2 : ℚ) * 100 / 100 = (hi'.2 : ℚ) := by ring
      have e2 : (lo.2 : ℚ) * 100 / 100 = (lo.2 : ℚ) := by ring
      rw [e1, e2] at hd ⊢
      rw [div_self hd]
      push_cast
      ring
    rw [hval, toInt_intCast]
  have htable : lineariseMotor [] pts = .ok ((List.range 101).map fun (i : Nat) => (i : Int)) := by
    rw [lineariseMotor_ok [] pts (0, 0) (100, 100) hraw hfirst hlast (by decide) (by decide)]
    congr 1
    have hr : List.range 101 = List.range 100 ++ [100] := List.range_succ 100
    rw [List.nil_append, hr, List.map_append]
    congr 1
    apply List.map_congr_left
    intro i hi
    exact hentry i (List.mem_range.mp hi)
  refine ⟨htable, by decide, ?_⟩
  intro invert c period comm
  refine ⟨_, ctor_ok invert c period pts comm _ htable, rfl, ?_⟩
  have e1 : toChar (and0xFF (calibratedPower
      ((List.range 101).map fun (i : Nat) => (i : Int)) false 50)) = 50 := by decide
  have e2 : toChar (and0xFF (calibratedPower
      ((List.range 101).map fun (i : Nat) => (i : Int)) true 50)) = 206 := by decide
  rw [setPower_true _ 50 (by simp) (by decide) (by decide)]
  cases (invert == "false") <;> simp [e1, e2]

/-- C13, witness: the points `(0;0)(50;50)(100;100)`. -/
theorem identity_table_witness :
    lineariseMotor [] [(0, 0), (50, 50), (100, 100)] =
      .ok ((List.range 101).map fun (i : Nat) => (i : Int)) :=
  (identity_table [(0, 0), (50, 50), (100, 100)] (by decide) rfl rfl (by decide)).1

/-- C18: on every list of at least two points whose last measured output is
above 0:
* if the first measured output is at most 0, then for every magnitude `i` in
  `0..99` the search stops, at some index `k + 1` with `0 ≤ k` and `k + 1` at most
  the last index, both points read after the decrement are inside the vector,
  and the difference of normalized outputs that divides the slope is strictly
  positive;
* if the first measured output is above 0, then at magnitude 0 the search stops
  at index 0, the decrement gives -1, which is outside the vector, and
  `lineariseMotor` ends there. -/
theorem search_in_bounds (pts : List (Int × Int)) (first last : Int × Int)
    (hlen : 2 ≤ pts.length)
    (hfirst : pts.head? = some first) (hlast : pts.getLast? = some last)
    (h1 : 0 < last.2) :
    (first.2 ≤ 0 → ∀ i : Nat, i < 100 →
      ∃ (k : Nat) (lo hi : ℚ × ℚ),
        whileLoop (i : Int) (normalise last.2 (toDoubles pts)) 0 = some ((k : Int) + 1) ∧
        k + 1 ≤ pts.length - 1 ∧
        at? (normalise last.2 (toDoubles pts)) ((k : Int) + 1 - 1) = some lo ∧
        at? (normalise last.2 (toDoubles pts)) ((k : Int) + 1 - 1 + 1) = some hi ∧
        0 < hi.2 - lo.2) ∧
    (0 < first.2 →
      whileLoop 0 (normalise last.2 (toDoubles pts)) 0 = some 0 ∧
      at? (normalise last.2 (toDoubles pts)) (0 - 1) = none ∧
      lineariseMotor [] pts = .error .IndexOutOfRange) := by
  have _ := hlen
  have hMpos : (0 : ℚ) < (last.2 : ℚ) := by exact_mod_cast h1
  constructor
  · intro h0 i hi
    obtain ⟨k, lo, hi', hlo, hhi, hle, hlt, _, hw, _⟩ :=
      iteration pts first last hfirst hlast h0 h1 i hi
    have hk : k + 1 < pts.length := (List.getElem?_eq_some_iff.mp hhi).1
    refine ⟨k, ((lo.1 : ℚ), (lo.2 : ℚ) * 100 / (last.2 : ℚ)),
      ((hi'.1 : ℚ), (hi'.2 : ℚ) * 100 / (last.2 : ℚ)), hw, by omega, ?_, ?_, ?_⟩
    · have : ((k : Int) + 1 - 1) = ((k : Nat) : Int) := by ring
      rw [this, at?_natCast, normalise_getElem?, hlo]
      rfl
    · have : ((k : Int) + 1 - 1 + 1) = ((k + 1 : Nat) : Int) := by push_cast; ring
      rw [this, at?_natCast, normalise_getElem?, hhi]
      rfl
    · simp only
      linarith
  · intro h0
    have hfirst' : pts[0]? = some first := by
      rw [← List.head?_eq_getElem?]; exact hfirst
    have hp0 : (normalise last.2 (toDoubles pts))[0]? =
        some ((first.1 : ℚ), (first.2 : ℚ) * 100 / (last.2 : ℚ)) := by
      rw [normalise_getElem?, hfirst']; rfl
    have hpos : (0 : ℚ) < (first.2 : ℚ) * 100 / (last.2 : ℚ) := by
      have : (0 : ℚ) < (first.2 : ℚ) := by exact_mod_cast h0
      positivity
    have hw : whileLoop 0 (normalise last.2 (toDoubles pts)) 0 = some 0 := by
      have := whileLoop_eq 0 (normalise last.2 (toDoubles pts)) 0 0 _ hp0
        (by simpa using hpos) (by intro j' q hj'; omega)
      simpa using this
    have hat : at? (normalise last.2 (toDoubles pts)) (0 - 1) = none := at?_neg _ (by decide)
    have hbody : loopBody (normalise last.2 (toDoubles pts)) 0 = .error .IndexOutOfRange := by
      unfold loopBody
      rw [hw]
      simp only [hat]
      cases at? (normalise last.2 (toDoubles pts)) (0 - 1 + 1) <;> rfl
    refine ⟨hw, hat, ?_⟩
    rw [lineariseMotor_eq [] pts last hlast (ne_of_gt h1)]
    rw [forLoop_error_of _ .IndexOutOfRange 100 0 [] 0 (by decide) (by simpa using hbody)
      (by intro j' hj'; omega)]

/-- C18, witness on the points `(0;0)(50;50)(100;100)` at
magnitude 50. -/
theorem search_in_bounds_witness :
    ∃ (k : Nat) (lo hi : ℚ × ℚ),
      whileLoop ((50 : Nat) : Int) (normalise 100 (toDoubles [(0, 0), (50, 50), (100, 100)])) 0 =
        some ((k : Int) + 1) ∧
      k + 1 ≤ ([(0, 0), (50, 50), (100, 100)] : List (Int × Int)).length - 1 ∧
      at? (normalise 100 (toDoubles [(0, 0), (50, 50), (100, 100)])) ((k : Int) + 1 - 1) =
        some lo ∧
      at? (normalise 100 (toDoubles [(0, 0), (50, 50), (100, 100)])) ((k : Int) + 1 - 1 + 1) =
        some hi ∧
      0 < hi.2 - lo.2 :=
  (search_in_bounds [(0, 0), (50, 50), (100, 100)] (0, 0) (100, 100)
    (by decide) rfl rfl (by decide)).1 (by decide) 50 (by decide)

/-- C19: on every list that is strictly increasing in both coordinates and whose
first point is `(r0; 0)`, a table is built as soon as the list has two points,
and entry 0 of every table built is `r0`.  On the driver constructed from the
list, `powerOff()` sends one command whose byte 2 is the byte of `-r0`, and of
`r0` when the inversion flag is set; for `-127 ≤ r0 ≤ 127` this byte read as a
signed 8-bit integer is that value, and it is 0 if and only if `r0 = 0`. -/
theorem entry_zero_and_powerOff (pts : List (Int × Int)) (first last : Int × Int)
    (hinc : pts.Pairwise fun a b => a.1 < b.1 ∧ a.2 < b.2)
    (hfirst : pts.head? = some first) (hlast : pts.getLast? = some last)
    (h0 : first.2 = 0) :
    (2 ≤ pts.length → ∃ t, lineariseMotor [] pts = .ok t) ∧
    (∀ t, lineariseMotor [] pts = .ok t → t[0]? = some first.1) ∧
    ∀ (invert : String) (c period : Int) (comm : List (List Nat)) (s : PowerMotor),
      PowerMotor.ctor invert c period pts comm = .ok s →
      ∃ b0 b1 b2 : Nat,
        s.powerOff.state.mCommunicator = s.mCommunicator ++ [[b0, b1, b2]] ∧
        b2 = toChar (and0xFF (if s.mInvert then first.1 else -first.1)) ∧
        (-127 ≤ first.1 → first.1 ≤ 127 →
          asSigned b2 = (if s.mInvert then first.1 else -first.1) ∧ (b2 = 0 ↔ first.1 = 0)) := by
  have hraw := pairwise_raw_le hinc
  have hmeas := pairwise_measured_lt hinc
  have h0' : first.2 ≤ 0 := le_of_eq h0
  have hentry0 : ∀ t, lineariseMotor [] pts = .ok t → t[0]? = some first.1 := by
    intro t ht
    obtain ⟨last', _, hlast', hne, _, _⟩ := lineariseMotor_ok_inv [] t pts ht
    rw [hlast] at hlast'
    cases hlast'
    have h1 : 0 < last.2 := last_pos pts first last hinc hfirst hlast h0 hne
    have hMpos : (0 : ℚ) < (last.2 : ℚ) := by exact_mod_cast h1
    have hfirst' : pts[0]? = some first := by
      rw [← List.head?_eq_getElem?]; exact hfirst
    obtain ⟨j, lo, hi, hlo, hhi, _, _, hall, _, hbody⟩ :=
      iteration pts first last hfirst hlast h0' h1 0 (by decide)
    have hj : j = 0 := by
      by_contra hj
      have hj1 : 1 ≤ j := Nat.one_le_iff_ne_zero.mpr hj
      have hlen1 : 1 < pts.length := by
        have := (List.getElem?_eq_some_iff.mp hlo).1
        omega
      have hp1 : pts[1]? = some pts[1] := List.getElem?_eq_getElem hlen1
      have hlt01 : first.2 < (pts[1]).2 := pairwise_getElem? hmeas (by decide) hfirst' hp1
      have hle1 := hall 1 pts[1] hj1 hp1
      have hpos : (0 : ℚ) < ((pts[1]).2 : ℚ) * 100 / (last.2 : ℚ) := by
        have : (0 : ℚ) < ((pts[1]).2 : ℚ) := by
          have : 0 < (pts[1]).2 := by omega
          exact_mod_cast this
        positivity
      simp only [Nat.cast_zero] at hle1
      linarith
    subst hj
    rw [hfirst'] at hlo
    cases hlo
    have hrawle : first.1 ≤ hi.1 := pairwise_getElem? hraw (by decide) hfirst' hhi
    rw [if_neg (not_lt.mpr hrawle)] at hbody
    rw [table_entry pts first last hraw hfirst hlast h0' h1 t ht 0 (by decide)]
    simp only [entryOf, hbody, h0]
    have : (first.1 : ℚ) + ((hi.1 : ℚ) - (first.1 : ℚ)) /
        ((hi.2 : ℚ) * 100 / (last.2 : ℚ) - ((0 : Int) : ℚ) * 100 / (last.2 : ℚ)) *
        (((0 : Nat) : ℚ) - ((0 : Int) : ℚ) * 100 / (last.2 : ℚ)) = ((first.1 : Int) : ℚ) := by
      simp
    rw [this, toInt_intCast]
  refine ⟨?_, hentry0, ?_⟩
  · intro hlen
    have h1 : 0 < last.2 := by
      have := first_lt_last pts first last hlen hmeas hfirst hlast
      omega
    exact ⟨_, lineariseMotor_ok [] pts first last hraw hfirst hlast h0' h1⟩
  · intro invert c period comm s hs
    have hlen := ctor_table_length invert c period pts comm s hs
    obtain ⟨t, ht, hst⟩ := ctor_ok_inv invert c period pts comm s hs
    have ht0 : s.mPowerMap[0]? = some first.1 := by
      rw [hst]; exact hentry0 t ht
    have hget : s.mPowerMap.getD 0 0 = first.1 := by
      rw [List.getD_eq_getElem?_getD, ht0]; rfl
    have hcal : calibratedPower s.mPowerMap s.mInvert 0 =
        (if s.mInvert then first.1 else -first.1) := by
      unfold calibratedPower
      simp only [gt_iff_lt, lt_self_iff_false, if_false, neg_zero, Int.toNat_zero, hget]
      cases s.mInvert <;> simp
    have hoff : s.powerOff = s.setPower 0 true := rfl
    rw [hoff, setPower_true s 0 hlen (by decide) (by decide), hcal]
    refine ⟨_, _, _, rfl, rfl, ?_⟩
    intro ha hb
    constructor
    · exact (asSigned_toChar_and0xFF _).2 (by split <;> omega) (by split <;> omega)
    · rw [toChar_and0xFF]
      split <;> omega

/-- C19, witness: the points `(7;0)(50;50)(100;100)`, whose table starts at 7. -/
theorem entry_zero_and_powerOff_witness :
    ∃ t, lineariseMotor [] [(7, 0), (50, 50), (100, 100)] = .ok t ∧ t[0]? = some 7 :=
  let h := entry_zero_and_powerOff [(7, 0), (50, 50), (100, 100)] (7, 0) (100, 100)
    (by decide) rfl rfl rfl
  let ⟨t, ht⟩ := h.1 (by decide)
  ⟨t, ht, h.2.1 t ht⟩

/-! ## The values of the table entries -/

/-- C15, counterexample: the points `(0;0)(30;1)(100;3)` are strictly increasing
in both coordinates and start at measured output 0.  At magnitude 30 the search
stops at index 1, so the pair is `(0, 1)`, and the interpolation in exact
arithmetic is `0 + 30 / (100/3) * 30 = 27`; in `double` arithmetic the code
stores 26 as entry 30 (`100/3` and `30 / (100/3)` are rounded, the product is
just below 27, and the conversion truncates). -/
theorem entry_double_differs_from_exact :
    (([(0, 0), (30, 1), (100, 3)] : List (Int × Int)).Pairwise
      fun a b => a.1 < b.1 ∧ a.2 < b.2) ∧
    whileLoop 30 (normaliseDouble 3 (toDoubles [(0, 0), (30, 1), (100, 3)])) 0 = some 1 ∧
    ((lineariseMotorDouble [] [(0, 0), (30, 1), (100, 3)]).toOption.bind fun t => t[30]?) =
      some 26 ∧
    toInt ((0 : ℚ) + ((30 : ℚ) - 0) / (normalized (100, 3) (30, 1) - normalized (100, 3) (0, 0)) *
      ((30 : ℚ) - normalized (100, 3) (0, 0))) = 27 :=
  ⟨by decide, by decide!, by decide!, by decide!⟩

/-- C15, amended: on every list of 32-bit integer points that is strictly
increasing in both coordinates and starts at measured output 0, computed as the
code does in `double` arithmetic, a table is built as soon as the list has two
points, and in every table built, for every magnitude `i` in `0..99`:
* the search stops at `k + 1` for a pair of consecutive points `(k, k + 1)` with
  `normalized k ≤ i < normalized (k + 1)`, where `normalized k` is the greatest
  normalized output that is at most `i` (`normalized j` the exact quotient
  `measured j * 100 / measured last`);
* the normalized outputs the code stores are these quotients rounded to the
  nearest `double`;
* entry `i` of the table is
  `raw k + (raw (k+1) - raw k) / (stored (k+1) - stored k) * (i - stored k)` with
  every operation rounded to the nearest `double`, truncated toward zero. -/
theorem bracket_and_entry_double (pts : List (Int × Int)) (first last : Int × Int)
    (hinc : pts.Pairwise fun a b => a.1 < b.1 ∧ a.2 < b.2)
    (hfirst : pts.head? = some first) (hlast : pts.getLast? = some last)
    (h0 : first.2 = 0)
    (hrange : ∀ p ∈ pts, (-2147483648 ≤ p.1 ∧ p.1 ≤ 2147483647) ∧
      (-2147483648 ≤ p.2 ∧ p.2 ≤ 2147483647)) :
    (2 ≤ pts.length → ∃ t, lineariseMotorDouble [] pts = .ok t) ∧
    ∀ t, lineariseMotorDouble [] pts = .ok t → ∀ i : Nat, i < 100 →
      ∃ (k : Nat) (lo hi : Int × Int), pts[k]? = some lo ∧ pts[k + 1]? = some hi ∧
        whileLoop (i : Int) (normaliseDouble last.2 (toDoubles pts)) 0 = some ((k : Int) + 1) ∧
        normalized last lo ≤ (i : ℚ) ∧ (i : ℚ) < normalized last hi ∧
        (∀ q ∈ pts, normalized last q ≤ (i : ℚ) → normalized last q ≤ normalized last lo) ∧
        normalizedDouble last lo = toDouble (normalized last lo) ∧
        normalizedDouble last hi = toDouble (normalized last hi) ∧
        t[i]? = some (toInt (toDouble ((lo.1 : ℚ) + toDouble
          (toDouble (toDouble ((hi.1 : ℚ) - (lo.1 : ℚ)) /
              toDouble (normalizedDouble last hi - normalizedDouble last lo)) *
            toDouble ((i : ℚ) - normalizedDouble last lo))))) := by
  have hraw := pairwise_raw_le hinc
  have hmeas := pairwise_measured_lt hinc
  have h0' : first.2 ≤ 0 := le_of_eq h0
  have hM : last.2 ≤ 2147483647 := (hrange last (getLast?_mem hlast)).2.2
  constructor
  · intro hlen
    have h1 : 0 < last.2 := by
      have := first_lt_last pts first last hlen hmeas hfirst hlast
      omega
    exact ⟨_, lineariseMotorDouble_ok [] pts first last hraw hfirst hlast h0' h1 hM⟩
  · intro t ht i hi
    have hne : last.2 ≠ 0 := by
      intro hz
      rw [lineariseMotorDouble_zero [] pts last hlast hz] at ht
      cases ht
    have h1 : 0 < last.2 := last_pos pts first last hinc hfirst hlast h0 hne
    have hMpos : (0 : ℚ) < (last.2 : ℚ) := by exact_mod_cast h1
    obtain ⟨j, lo, hi', hlo, hhi, hle, hlt, hw, hbody⟩ :=
      iterationDouble pts first last hraw hfirst hlast h0' h1 hM i hi
    obtain ⟨_, hlo1, hlo2⟩ := hrange lo (List.getElem?_mem hlo)
    obtain ⟨_, hhi1, hhi2⟩ := hrange hi' (List.getElem?_mem hhi)
    have hle' : normalized last lo ≤ (i : ℚ) :=
      (stored_le_iff lo.2 last.2 i hi hlo1 hlo2 h1 hM).mp hle
    have hlt' : (i : ℚ) < normalized last hi' := by
      by_contra hcon
      have := (stored_le_iff hi'.2 last.2 i hi hhi1 hhi2 h1 hM).mpr (not_lt.mp hcon)
      linarith
    have hstored : ∀ p : Int × Int, (-2147483648 ≤ p.2 ∧ p.2 ≤ 2147483647) →
        normalizedDouble last p = toDouble (normalized last p) := by
      intro p hp
      have hprod : toDouble ((p.2 : ℚ) * 100) = (p.2 : ℚ) * 100 := by
        have := toDouble_intCast (p.2 * 100) (by omega) (by omega)
        push_cast at this
        exact this
      unfold normalizedDouble normalized
      rw [hprod]
    refine ⟨j, lo, hi', hlo, hhi, hw, hle', hlt', ?_, hstored lo ⟨hlo1, hlo2⟩,
      hstored hi' ⟨hhi1, hhi2⟩, ?_⟩
    · intro q hq hqi
      obtain ⟨b, hb⟩ := List.mem_iff_getElem?.mp hq
      unfold normalized
      rcases Nat.lt_or_ge j b with h | h
      · -- a point behind `k` has a normalized output above `i`
        have hge : hi'.2 ≤ q.2 := by
          rcases Nat.lt_or_ge (j + 1) b with h' | h'
          · exact le_of_lt (pairwise_getElem? hmeas h' hhi hb)
          · have : j + 1 = b := by omega
            subst this
            rw [hhi] at hb
            cases hb
            exact le_refl _
        have : (hi'.2 : ℚ) * 100 / (last.2 : ℚ) ≤ (q.2 : ℚ) * 100 / (last.2 : ℚ) := by
          have : (hi'.2 : ℚ) ≤ (q.2 : ℚ) := by exact_mod_cast hge
          exact div_le_div_of_nonneg_right (by linarith) (le_of_lt hMpos)
        unfold normalized at hqi hlt'
        linarith
      · have hleq : q.2 ≤ lo.2 := by
          rcases Nat.lt_or_ge b j with h' | h'
          · exact le_of_lt (pairwise_getElem? hmeas h' hb hlo)
          · have : b = j := by omega
            subst this
            rw [hlo] at hb
            cases hb
            exact le_refl _
        have : (q.2 : ℚ) ≤ (lo.2 : ℚ) := by exact_mod_cast hleq
        exact div_le_div_of_nonneg_right (by linarith) (le_of_lt hMpos)
    · rw [lineariseMotorDouble_ok [] pts first last hraw hfirst hlast h0' h1 hM] at ht
      simp only [Except.ok.injEq] at ht
      rw [← ht, List.nil_append, table_getElem? _ i hi]
      simp only [entryOfDouble, hbody, normalizedDouble]

/-- C15, witness of the amended claim on the points `(0;0)(30;1)(100;3)`. -/
theorem bracket_and_entry_double_witness :
    ∃ t, lineariseMotorDouble [] [(0, 0), (30, 1), (100, 3)] = .ok t :=
  (bracket_and_entry_double [(0, 0), (30, 1), (100, 3)] (0, 0) (100, 3)
    (by decide) rfl rfl rfl (by decide)).1 (by decide)

end trikControl
